import Mathlib

/-!
Verification of the losgodis library: a UTF-8 validator/decoder
(src/losgodis/utf8.cpp, include/losgodis/utf8.hpp) and a string interning
pool (src/losgodis/string_pool.cpp, include/losgodis/string_pool.hpp).

Bytes are modelled as natural numbers below 256; machine integer
arithmetic in the sources never overflows in the relevant expressions
(codepoint assembly stays below 2^21, well inside uint32_t), so plain
Nat arithmetic and Nat bitwise operators are a faithful translation.
-/

namespace losgodis

namespace utf8

/-- Mirror of enum class validation_error in utf8.hpp (the misspelling
overlong_enocoding is the name used by the source). -/
inductive validation_error where
  | success
  | invalid_byte
  | invalid_codepoint
  | overlong_enocoding
  | unexpected_continuation_byte
  | unexpected_non_continuation_byte
  | unexpected_end
deriving DecidableEq, Repr

/-- Mirror of struct validation_result. The utf8_range stored in the result
always has the form range.to_utf8 i, i.e. it spans the first range_size
bytes of the input, so it is represented by its byte count. -/
structure validation_result where
  error : validation_error
  range_size : Nat
  codepoint_count : Nat
deriving DecidableEq, Repr

/-- The test (b2 ^ 0x80u) & 0xC0u of utf8.cpp: true iff b2 is not a
continuation byte. -/
def cont_bad1 (b2 : Nat) : Bool :=
  ((b2 ^^^ 0x80) &&& 0xC0) != 0

/-- The test (b2 ^ 0x80u | b3 ^ 0x80u) & 0xC0u of utf8.cpp. -/
def cont_bad2 (b2 b3 : Nat) : Bool :=
  ((((b2 ^^^ 0x80) ||| (b3 ^^^ 0x80))) &&& 0xC0) != 0

/-- The test (b2 ^ 0x80u | b3 ^ 0x80u | b4 ^ 0x80u) & 0xC0u of utf8.cpp. -/
def cont_bad3 (b2 b3 b4 : Nat) : Bool :=
  ((((b2 ^^^ 0x80) ||| (b3 ^^^ 0x80) ||| (b4 ^^^ 0x80))) &&& 0xC0) != 0

/-- The local variable codepoint of the 2-byte branch of validate:
((b1 & 0x1Fu) << 6) | (b2 & 0x3Fu). -/
def codepoint2 (b1 b2 : Nat) : Nat :=
  ((b1 &&& 0x1F) <<< 6) ||| (b2 &&& 0x3F)

/-- The local variable codepoint of the 3-byte branch of validate:
((b1 & 0xFu) << 12) | ((b2 & 0x3Fu) << 6) | (b3 & 0x3Fu). -/
def codepoint3 (b1 b2 b3 : Nat) : Nat :=
  ((b1 &&& 0xF) <<< 12) ||| ((b2 &&& 0x3F) <<< 6) ||| (b3 &&& 0x3F)

/-- The local variable codepoint of the 4-byte branch of validate:
((b1 & 0x7u) << 18) | ((b2 & 0x3Fu) << 12) | ((b3 & 0x3Fu) << 6) | (b4 & 0x3Fu). -/
def codepoint4 (b1 b2 b3 b4 : Nat) : Nat :=
  ((b1 &&& 0x7) <<< 18) ||| ((b2 &&& 0x3F) <<< 12) ||| ((b3 &&& 0x3F) <<< 6) ||| (b4 &&& 0x3F)

/-- The loop of validate in utf8.cpp: bytes is the input byte range, i
the current byte offset, count the number of codepoints validated so
far.  Reads range[k] become bytes.getD k 0; every read in the source is
preceded by a bounds test, so the default is never observable. -/
def validate_loop (bytes : List Nat) (i count : Nat) : validation_result :=
  if i < bytes.length then
    if bytes.getD i 0 < 0x80 then
      validate_loop bytes (i + 1) (count + 1)
    else if bytes.getD i 0 < 0xC0 then
      ⟨.unexpected_continuation_byte, i, count⟩
    else if bytes.getD i 0 < 0xE0 then
      if i + 1 ≥ bytes.length then
        ⟨.unexpected_end, i, count⟩
      else if cont_bad1 (bytes.getD (i + 1) 0) then
        ⟨.unexpected_non_continuation_byte, i, count⟩
      else if codepoint2 (bytes.getD i 0) (bytes.getD (i + 1) 0) < 0x7F then
        ⟨.overlong_enocoding, i, count⟩
      else
        validate_loop bytes (i + 2) (count + 1)
    else if bytes.getD i 0 < 0xF0 then
      if i + 2 ≥ bytes.length then
        ⟨.unexpected_end, i, count⟩
      else if cont_bad2 (bytes.getD (i + 1) 0) (bytes.getD (i + 2) 0) then
        ⟨.unexpected_non_continuation_byte, i, count⟩
      else if codepoint3 (bytes.getD i 0) (bytes.getD (i + 1) 0) (bytes.getD (i + 2) 0) ≤ 0x7FF then
        ⟨.overlong_enocoding, i, count⟩
      else
        validate_loop bytes (i + 3) (count + 1)
    else if bytes.getD i 0 < 0xF8 then
      if i + 3 ≥ bytes.length then
        ⟨.unexpected_end, i, count⟩
      else if cont_bad3 (bytes.getD (i + 1) 0) (bytes.getD (i + 2) 0) (bytes.getD (i + 3) 0) then
        ⟨.unexpected_non_continuation_byte, i, count⟩
      else if codepoint4 (bytes.getD i 0) (bytes.getD (i + 1) 0) (bytes.getD (i + 2) 0) (bytes.getD (i + 3) 0) > 0x10FFFF then
        ⟨.invalid_codepoint, i, count⟩
      else if codepoint4 (bytes.getD i 0) (bytes.getD (i + 1) 0) (bytes.getD (i + 2) 0) (bytes.getD (i + 3) 0) ≤ 0xFFFF then
        ⟨.overlong_enocoding, i, count⟩
      else
        validate_loop bytes (i + 4) (count + 1)
    else
      ⟨.invalid_byte, i, count⟩
  else
    ⟨.success, i, count⟩
termination_by bytes.length - i

/-- validate of utf8.cpp. -/
def validate (bytes : List Nat) : validation_result :=
  validate_loop bytes 0 0

/-- The loop of validate_quick in utf8.cpp: same control flow as
validate_loop but without the overlong-encoding and invalid-codepoint
checks. -/
def validate_quick_loop (bytes : List Nat) (i count : Nat) : validation_result :=
  if i < bytes.length then
    if bytes.getD i 0 < 0x80 then
      validate_quick_loop bytes (i + 1) (count + 1)
    else if bytes.getD i 0 < 0xC0 then
      ⟨.unexpected_continuation_byte, i, count⟩
    else if bytes.getD i 0 < 0xE0 then
      if i + 1 ≥ bytes.length then
        ⟨.unexpected_end, i, count⟩
      else if cont_bad1 (bytes.getD (i + 1) 0) then
        ⟨.unexpected_non_continuation_byte, i, count⟩
      else
        validate_quick_loop bytes (i + 2) (count + 1)
    else if bytes.getD i 0 < 0xF0 then
      if i + 2 ≥ bytes.length then
        ⟨.unexpected_end, i, count⟩
      else if cont_bad2 (bytes.getD (i + 1) 0) (bytes.getD (i + 2) 0) then
        ⟨.unexpected_non_continuation_byte, i, count⟩
      else
        validate_quick_loop bytes (i + 3) (count + 1)
    else if bytes.getD i 0 < 0xF8 then
      if i + 3 ≥ bytes.length then
        ⟨.unexpected_end, i, count⟩
      else if cont_bad3 (bytes.getD (i + 1) 0) (bytes.getD (i + 2) 0) (bytes.getD (i + 3) 0) then
        ⟨.unexpected_non_continuation_byte, i, count⟩
      else
        validate_quick_loop bytes (i + 4) (count + 1)
    else
      ⟨.invalid_byte, i, count⟩
  else
    ⟨.success, i, count⟩
termination_by bytes.length - i

/-- validate_quick of utf8.cpp. -/
def validate_quick (bytes : List Nat) : validation_result :=
  validate_quick_loop bytes 0 0

/-- iterator::operator* of utf8.hpp: decode the codepoint at byte offset
pos of data assumed already valid.  Out-of-range reads (undefined
behaviour in the source, excluded by the validity precondition of every
theorem below) are modelled as reading 0. -/
def iter_deref (bytes : List Nat) (pos : Nat) : Nat :=
  if bytes.getD pos 0 < 0x80 then
    bytes.getD pos 0
  else if bytes.getD pos 0 < 0xE0 then
    codepoint2 (bytes.getD pos 0) (bytes.getD (pos + 1) 0)
  else if bytes.getD pos 0 < 0xF0 then
    codepoint3 (bytes.getD pos 0) (bytes.getD (pos + 1) 0) (bytes.getD (pos + 2) 0)
  else
    codepoint4 (bytes.getD pos 0) (bytes.getD (pos + 1) 0) (bytes.getD (pos + 2) 0) (bytes.getD (pos + 3) 0)

/-- iterator::operator++ of utf8.hpp: advance the cursor by the byte
length implied by the lead byte (the assert(false) branches of the source
still advance by 1, as the source does after the assert). -/
def iter_next (bytes : List Nat) (pos : Nat) : Nat :=
  if bytes.getD pos 0 ≤ 0x7F then pos + 1
  else if bytes.getD pos 0 ≤ 0xBF then pos + 1
  else if bytes.getD pos 0 ≤ 0xDF then pos + 2
  else if bytes.getD pos 0 ≤ 0xEF then pos + 3
  else if bytes.getD pos 0 ≤ 0xF7 then pos + 4
  else pos + 1

/-- n iterations of reading the current codepoint (operator*) then
advancing (operator++), returning the codepoints in order together with
the final byte offset of the iterator. -/
def iterate_decode (bytes : List Nat) : Nat → Nat → List Nat × Nat
  | pos, 0 => ([], pos)
  | pos, n + 1 =>
    let r := iterate_decode bytes (iter_next bytes pos) n
    (iter_deref bytes pos :: r.1, r.2)

/-- Specification-side definition (not from the source): the
minimal-length UTF-8 encoding of a codepoint, written with division and
remainder. -/
def utf8EncodeChar (c : Nat) : List Nat :=
  if c < 0x80 then [c]
  else if c < 0x800 then
    [0xC0 + c / 64, 0x80 + c % 64]
  else if c < 0x10000 then
    [0xE0 + c / 4096, 0x80 + c / 64 % 64, 0x80 + c % 64]
  else
    [0xF0 + c / 262144, 0x80 + c / 4096 % 64, 0x80 + c / 64 % 64, 0x80 + c % 64]

/-- Specification-side definition: a well-formed UTF-8 byte range, the
concatenation of the minimal-length encodings of a list of codepoints. -/
def utf8Encode (cs : List Nat) : List Nat :=
  (cs.map utf8EncodeChar).flatten

/-- A Unicode scalar value: in range and not a UTF-16 surrogate. -/
def IsScalar (c : Nat) : Prop :=
  c ≤ 0x10FFFF ∧ ¬ (0xD800 ≤ c ∧ c ≤ 0xDFFF)

instance (c : Nat) : Decidable (IsScalar c) := by
  unfold IsScalar; infer_instance

/-- The class of byte that the claims assign to each failure kind at the
end of the returned prefix range: the offending byte itself for
unexpected_continuation_byte and invalid_byte, the lead byte of the
failing multi-byte sequence for the other four error kinds. -/
def errByteClass (b : Nat) : validation_error → Prop
  | .unexpected_continuation_byte => 0x80 ≤ b ∧ b < 0xC0
  | .invalid_byte => 0xF8 ≤ b
  | .success => True
  | _ => 0xC0 ≤ b ∧ b < 0xF8

end utf8

end losgodis


namespace losgodis

/-- The fixed page capacity of string_pool.hpp. -/
def page_size : Nat := 4096

/-- An abstract address of string bytes: an offset into the idx-th page
allocated by the pool (pages numbered oldest first), or the identity of a
caller-owned string literal. -/
inductive Addr where
  | page (idx : Nat) (off : Nat)
  | lit (id : Nat)
deriving DecidableEq, Repr

/-- fixed_string of string_pool.hpp: a (data pointer, length) view.
Equality of fixed_string values is address equality, as in the source. -/
structure fixed_string where
  data : Addr
  size : Nat
deriving DecidableEq, Repr

/-- detail::fixed_page of string_pool.hpp: a page_size byte buffer with a
bump pointer.  The std::array of bytes is modelled as a function from
index to byte value (uninitialised bytes read 0); remaining_ counts the
free bytes at the end of the buffer. -/
structure fixed_page where
  buffer : Nat → Nat
  remaining : Nat

/-- A freshly constructed page: remaining_ = page_size. -/
def freshPage : fixed_page :=
  ⟨fun _ => 0, page_size⟩

/-- fixed_page::can_hold: (size + 1) < remaining_. -/
def fixed_page.can_hold (p : fixed_page) (size : Nat) : Bool :=
  size + 1 < p.remaining

/-- fixed_page::push_back: the write starts at
&buffer_.back() - remaining_ + 1, i.e. at offset page_size - remaining_;
the content bytes are copied there, a 0 terminator is appended, and
remaining_ decreases by size + 1.  Returns the updated page and the
start offset.  The source never calls this without the capacity check
(or a fresh page), so the Nat truncation in remaining - (size + 1)
mirrors well-defined executions exactly. -/
def fixed_page.push_back (pg : fixed_page) (content : List Nat) : fixed_page × Nat :=
  let size := content.length
  let start := page_size - pg.remaining
  (⟨fun j => if start ≤ j ∧ j < start + size + 1 then (content ++ [0]).getD (j - start) 0
      else pg.buffer j,
    pg.remaining - (size + 1)⟩,
   start)

namespace detail

/-- The FNV-1a constexpr hash of string_pool.hpp for 64-bit size_t, with
the size_t wrap-around modelled by reduction mod 2^64. -/
def hash (data : List Nat) : Nat :=
  data.foldl (fun h b => ((h ^^^ b) * 1099511628211) % (2 ^ 64)) 14695981039346656037

end detail

/-- An entry of the dedup index map_: a string_key whose view points into
stable memory (a page or caller-owned literal memory), with its
precomputed hash. -/
structure Entry where
  addr : Addr
  size : Nat
  hash : Nat
deriving DecidableEq, Repr

/-- string_pool of string_pool.hpp.  The source stores the newest page
and each page owns the previous one; the model keeps the same pages in a
list, oldest first, with the current page last. -/
structure string_pool where
  map : List Entry
  pages : List fixed_page

/-- The default-constructed pool: empty index, no page. -/
def string_pool.empty : string_pool :=
  ⟨[], []⟩

/-- Reading one byte at an address.  litMem gives the immutable content
of each caller-owned literal (the source requires literal memory to
outlive the pool and never change). -/
def readByte (litMem : Nat → List Nat) (s : string_pool) : Addr → Nat → Nat
  | .page p off, j => (s.pages.getD p freshPage).buffer (off + j)
  | .lit id, j => (litMem id).getD j 0

/-- The n bytes stored at an address. -/
def readBytes (litMem : Nat → List Nat) (s : string_pool) (a : Addr) (n : Nat) : List Nat :=
  (List.range n).map (readByte litMem s a)

/-- The bytes an index entry views. -/
def entryContent (litMem : Nat → List Nat) (s : string_pool) (e : Entry) : List Nat :=
  readBytes litMem s e.addr e.size

/-- map_.find(key): the std::unordered_set lookup.  string_key hashes are
a pure function of the content and operator== compares the viewed bytes,
so the lookup succeeds exactly on an entry with equal content; it is
modelled as a search by content. -/
def findEntry (litMem : Nat → List Nat) (s : string_pool) (c : List Nat) : Option Entry :=
  s.map.find? (fun e => entryContent litMem s e == c)

/-- The pages after the page-roll check of get_string(string_key): if
there is no page yet, or the current page cannot hold the content, a
fresh page is chained on top and becomes the current page. -/
def string_pool.rolledPages (s : string_pool) (size : Nat) : List fixed_page :=
  match s.pages.getLast? with
  | none => s.pages ++ [freshPage]
  | some pg => if pg.can_hold size then s.pages else s.pages ++ [freshPage]

/-- string_pool::get_string(string_key): on a hit return a view of the
stored bytes with the size of the probe key; on a miss roll the page if
needed, copy the content into the current page, index the copy and
return a view of it. -/
def string_pool.get_string_key (litMem : Nat → List Nat) (s : string_pool) (c : List Nat) :
    fixed_string × string_pool :=
  match findEntry litMem s c with
  | some e => (⟨e.addr, c.length⟩, s)
  | none =>
    let pages := s.rolledPages c.length
    let idx := pages.length - 1
    let pr := (pages.getD idx freshPage).push_back c
    (⟨.page idx pr.2, c.length⟩,
      ⟨⟨.page idx pr.2, c.length, detail.hash c⟩ :: s.map, pages.set idx pr.1⟩)

/-- string_pool::get_string(string_literal): on a miss the index entry
points directly at the caller-owned literal memory; nothing is copied
and no page is touched. -/
def string_pool.get_string_literal (litMem : Nat → List Nat) (s : string_pool) (id : Nat) :
    fixed_string × string_pool :=
  match findEntry litMem s (litMem id) with
  | some e => (⟨e.addr, (litMem id).length⟩, s)
  | none =>
    (⟨.lit id, (litMem id).length⟩,
      ⟨⟨.lit id, (litMem id).length, detail.hash (litMem id)⟩ :: s.map, s.pages⟩)

/-- string_pool::get_string(std::string_view): delegates to the
string_key overload. -/
def string_pool.get_string_view (litMem : Nat → List Nat) (s : string_pool) (c : List Nat) :
    fixed_string × string_pool :=
  s.get_string_key litMem c

/-- string_pool::get_string(const std::string&): delegates to the
string_key overload. -/
def string_pool.get_string_str (litMem : Nat → List Nat) (s : string_pool) (c : List Nat) :
    fixed_string × string_pool :=
  s.get_string_key litMem c

/-- The string_pool(std::initializer_list<string_literal>) constructor:
the literals are range-inserted into the index, equivalent to repeated
zero-copy literal inserts; no page is allocated. -/
def string_pool.ofLiterals (litMem : Nat → List Nat) (ids : List Nat) : string_pool :=
  ids.foldl (fun s id => (s.get_string_literal litMem id).2) string_pool.empty

/-- One interning call: through a copying entry point (string_key,
string_view or std::string, which all run the string_key path) with the
content bytes, or through the zero-copy string_literal entry point with
the literal identity. -/
inductive Op where
  | key (c : List Nat)
  | lit (id : Nat)

/-- The byte content interned by an operation. -/
def opContent (litMem : Nat → List Nat) : Op → List Nat
  | .key c => c
  | .lit id => litMem id

/-- Execute one operation. -/
def applyOp (litMem : Nat → List Nat) (s : string_pool) : Op → fixed_string × string_pool
  | .key c => s.get_string_key litMem c
  | .lit id => s.get_string_literal litMem id

/-- Execute a list of operations, collecting the returned handles. -/
def runPool (litMem : Nat → List Nat) (s : string_pool) :
    List Op → string_pool × List fixed_string
  | [] => (s, [])
  | op :: ops =>
    let r := applyOp litMem s op
    let rest := runPool litMem r.2 ops
    (rest.1, r.1 :: rest.2)

/-- The size precondition of the claims: every string interned through
the copying path fits in one page together with its terminator. -/
def OpFits : Op → Prop
  | .key c => c.length + 1 < page_size
  | .lit _ => True

/-- OpFits is decidable: the key case is a size comparison. -/
instance (op : Op) : Decidable (OpFits op) :=
  match op with
  | .key c => inferInstanceAs (Decidable (c.length + 1 < page_size))
  | .lit _ => Decidable.isTrue trivial

/-- Pool states reachable by interning calls from a fresh pool, every
copied string fitting in a page. -/
inductive Reachable (litMem : Nat → List Nat) : string_pool → Prop where
  | empty : Reachable litMem string_pool.empty
  | key {s : string_pool} {c : List Nat} : Reachable litMem s →
      c.length + 1 < page_size → Reachable litMem (s.get_string_key litMem c).2
  | lit {s : string_pool} {id : Nat} : Reachable litMem s →
      Reachable litMem (s.get_string_literal litMem id).2

/-- The used (already written, never written again) byte count of page
p: page_size - remaining. -/
def pageUsed (s : string_pool) (p : Nat) : Nat :=
  page_size - (s.pages.getD p freshPage).remaining

/-- An address range that later pool operations never modify: any
literal range, or a page range inside the used region of its page. -/
def FrozenA (s : string_pool) : Addr → Nat → Prop
  | .page p off, n => p < s.pages.length ∧ off + n ≤ pageUsed s p
  | .lit _, _ => True

/-- Well-formedness of a pool state: remaining never exceeds the page
capacity, every index entry views frozen bytes (content plus terminator
for page entries), and entry contents are pairwise distinct. -/
structure Inv (litMem : Nat → List Nat) (s : string_pool) : Prop where
  remaining_le : ∀ pg ∈ s.pages, pg.remaining ≤ page_size
  entries_frozen : ∀ e ∈ s.map, FrozenA s e.addr (e.size + 1)
  entries_unique : s.map.Pairwise
    (fun e1 e2 => entryContent litMem s e1 ≠ entryContent litMem s e2)

end losgodis


namespace losgodis

namespace utf8

/-!  Byte-level facts about the bit tests of utf8.cpp, established once
by finite enumeration and reused for the encoder round trip. -/

theorem xor_80 (m : Nat) (hm : m < 64) : (0x80 + m) ^^^ 0x80 = m := by
  have h : ∀ v : Fin 64, ((0x80 + v.val) ^^^ 0x80) = v.val := by decide
  exact h ⟨m, hm⟩

theorem and_C0_small (v : Nat) (hv : v < 64) : v &&& 0xC0 = 0 := by
  have h : ∀ w : Fin 64, (w.val &&& 0xC0) = 0 := by decide
  exact h ⟨v, hv⟩

theorem and_3F_cont (m : Nat) (hm : m < 64) : (0x80 + m) &&& 0x3F = m := by
  have h : ∀ v : Fin 64, ((0x80 + v.val) &&& 0x3F) = v.val := by decide
  exact h ⟨m, hm⟩

theorem and_1F_lead (k : Nat) (hk : k < 32) : (0xC0 + k) &&& 0x1F = k := by
  have h : ∀ v : Fin 32, ((0xC0 + v.val) &&& 0x1F) = v.val := by decide
  exact h ⟨k, hk⟩

theorem and_0F_lead (k : Nat) (hk : k < 16) : (0xE0 + k) &&& 0xF = k := by
  have h : ∀ v : Fin 16, ((0xE0 + v.val) &&& 0xF) = v.val := by decide
  exact h ⟨k, hk⟩

theorem and_07_lead (k : Nat) (hk : k < 8) : (0xF0 + k) &&& 0x7 = k := by
  have h : ∀ v : Fin 8, ((0xF0 + v.val) &&& 0x7) = v.val := by decide
  exact h ⟨k, hk⟩

theorem or_lt_64 (x y : Nat) (hx : x < 64) (hy : y < 64) : x ||| y < 64 := by
  have hx6 : x < 2 ^ 6 := by simpa using hx
  have hy6 : y < 2 ^ 6 := by simpa using hy
  simpa using Nat.or_lt_two_pow hx6 hy6

theorem cont_bad1_cont (m : Nat) (hm : m < 64) : cont_bad1 (0x80 + m) = false := by
  unfold cont_bad1
  rw [xor_80 m hm, and_C0_small m hm]
  rfl

theorem cont_bad2_cont (m1 m2 : Nat) (h1 : m1 < 64) (h2 : m2 < 64) :
    cont_bad2 (0x80 + m1) (0x80 + m2) = false := by
  unfold cont_bad2
  rw [xor_80 m1 h1, xor_80 m2 h2, and_C0_small _ (or_lt_64 _ _ h1 h2)]
  rfl

theorem cont_bad3_cont (m1 m2 m3 : Nat) (h1 : m1 < 64) (h2 : m2 < 64) (h3 : m3 < 64) :
    cont_bad3 (0x80 + m1) (0x80 + m2) (0x80 + m3) = false := by
  unfold cont_bad3
  rw [xor_80 m1 h1, xor_80 m2 h2, xor_80 m3 h3,
    and_C0_small _ (or_lt_64 _ _ (or_lt_64 _ _ h1 h2) h3)]
  rfl

/-- Disjoint bit ranges: or of a shifted value and a small value is
addition. -/
theorem lor_mul_add (x m n : Nat) (h : m < 2 ^ n) : (x * 2 ^ n) ||| m = x * 2 ^ n + m := by
  rw [Nat.mul_comm x (2 ^ n)]
  exact (Nat.mul_add_lt_is_or h x).symm

theorem lor_mul_add_64 (x m : Nat) (h : m < 64) : (x * 64) ||| m = x * 64 + m := by
  have h6 : m < 2 ^ 6 := by simpa using h
  simpa using lor_mul_add x m 6 h6

theorem lor_mul_add_4096 (x m : Nat) (h : m < 4096) : (x * 4096) ||| m = x * 4096 + m := by
  have h12 : m < 2 ^ 12 := by simpa using h
  simpa using lor_mul_add x m 12 h12

theorem lor_mul_add_262144 (x m : Nat) (h : m < 262144) :
    (x * 262144) ||| m = x * 262144 + m := by
  have h18 : m < 2 ^ 18 := by simpa using h
  simpa using lor_mul_add x m 18 h18

/-- The 2-byte codepoint reassembly of validate inverts the encoder. -/
theorem codepoint2_eval (c : Nat) (h : c < 0x800) :
    codepoint2 (0xC0 + c / 64) (0x80 + c % 64) = c := by
  unfold codepoint2
  rw [and_1F_lead _ (by omega), and_3F_cont _ (by omega), Nat.shiftLeft_eq]
  rw [show (2:Nat) ^ 6 = 64 from by norm_num]
  rw [lor_mul_add_64 _ _ (by omega)]
  omega

/-- The 3-byte codepoint reassembly of validate inverts the encoder. -/
theorem codepoint3_eval (c : Nat) (h : c < 0x10000) :
    codepoint3 (0xE0 + c / 4096) (0x80 + c / 64 % 64) (0x80 + c % 64) = c := by
  unfold codepoint3
  rw [and_0F_lead _ (by omega), and_3F_cont _ (by omega), and_3F_cont _ (by omega),
    Nat.shiftLeft_eq, Nat.shiftLeft_eq]
  rw [show (2:Nat) ^ 12 = 4096 from by norm_num, show (2:Nat) ^ 6 = 64 from by norm_num]
  rw [lor_mul_add_4096 _ _ (by omega)]
  rw [show c / 4096 * 4096 + c / 64 % 64 * 64 = c / 64 * 64 from by omega]
  rw [lor_mul_add_64 _ _ (by omega)]
  omega

/-- The 4-byte codepoint reassembly of validate inverts the encoder. -/
theorem codepoint4_eval (c : Nat) (h : c < 0x200000) :
    codepoint4 (0xF0 + c / 262144) (0x80 + c / 4096 % 64) (0x80 + c / 64 % 64) (0x80 + c % 64) = c := by
  unfold codepoint4
  rw [and_07_lead _ (by omega), and_3F_cont _ (by omega), and_3F_cont _ (by omega),
    and_3F_cont _ (by omega), Nat.shiftLeft_eq, Nat.shiftLeft_eq, Nat.shiftLeft_eq]
  rw [show (2:Nat) ^ 18 = 262144 from by norm_num,
    show (2:Nat) ^ 12 = 4096 from by norm_num, show (2:Nat) ^ 6 = 64 from by norm_num]
  rw [lor_mul_add_262144 _ _ (by omega)]
  rw [show c / 262144 * 262144 + c / 4096 % 64 * 4096 = c / 4096 * 4096 from by omega]
  rw [lor_mul_add_4096 _ _ (by omega)]
  rw [show c / 4096 * 4096 + c / 64 % 64 * 64 = c / 64 * 64 from by omega]
  rw [lor_mul_add_64 _ _ (by omega)]
  omega

/-!  One-step unfolding lemmas for validate_loop, one per successfully
consumed sequence, plus the loop exit. -/

theorem validate_loop_exit (bytes : List Nat) (i count : Nat) (hge : ¬ i < bytes.length) :
    validate_loop bytes i count = ⟨.success, i, count⟩ := by
  rw [validate_loop.eq_def, if_neg hge]

theorem validate_loop_step1 (bytes : List Nat) (i count : Nat)
    (hlt : i < bytes.length) (hb : bytes.getD i 0 < 0x80) :
    validate_loop bytes i count = validate_loop bytes (i + 1) (count + 1) := by
  rw [validate_loop.eq_def, if_pos hlt, if_pos hb]

theorem validate_loop_step2 (bytes : List Nat) (i count : Nat)
    (hlt : i + 1 < bytes.length)
    (hb1 : 0xC0 ≤ bytes.getD i 0) (hb2 : bytes.getD i 0 < 0xE0)
    (hc : cont_bad1 (bytes.getD (i + 1) 0) = false)
    (hov : ¬ codepoint2 (bytes.getD i 0) (bytes.getD (i + 1) 0) < 0x7F) :
    validate_loop bytes i count = validate_loop bytes (i + 2) (count + 1) := by
  have h1 : i < bytes.length := by omega
  have h2 : ¬ bytes.getD i 0 < 0x80 := by omega
  have h3 : ¬ bytes.getD i 0 < 0xC0 := by omega
  have h4 : ¬ i + 1 ≥ bytes.length := by omega
  have h5 : ¬ cont_bad1 (bytes.getD (i + 1) 0) = true := by simp only [hc]; decide
  rw [validate_loop.eq_def, if_pos h1, if_neg h2, if_neg h3, if_pos hb2, if_neg h4,
    if_neg h5, if_neg hov]

theorem validate_loop_step3 (bytes : List Nat) (i count : Nat)
    (hlt : i + 2 < bytes.length)
    (hb1 : 0xE0 ≤ bytes.getD i 0) (hb2 : bytes.getD i 0 < 0xF0)
    (hc : cont_bad2 (bytes.getD (i + 1) 0) (bytes.getD (i + 2) 0) = false)
    (hov : ¬ codepoint3 (bytes.getD i 0) (bytes.getD (i + 1) 0) (bytes.getD (i + 2) 0) ≤ 0x7FF) :
    validate_loop bytes i count = validate_loop bytes (i + 3) (count + 1) := by
  have h1 : i < bytes.length := by omega
  have h2 : ¬ bytes.getD i 0 < 0x80 := by omega
  have h3 : ¬ bytes.getD i 0 < 0xC0 := by omega
  have h4 : ¬ bytes.getD i 0 < 0xE0 := by omega
  have h5 : ¬ i + 2 ≥ bytes.length := by omega
  have h6 : ¬ cont_bad2 (bytes.getD (i + 1) 0) (bytes.getD (i + 2) 0) = true := by simp only [hc]; decide
  rw [validate_loop.eq_def, if_pos h1, if_neg h2, if_neg h3, if_neg h4, if_pos hb2,
    if_neg h5, if_neg h6, if_neg hov]

theorem validate_loop_step4 (bytes : List Nat) (i count : Nat)
    (hlt : i + 3 < bytes.length)
    (hb1 : 0xF0 ≤ bytes.getD i 0) (hb2 : bytes.getD i 0 < 0xF8)
    (hc : cont_bad3 (bytes.getD (i + 1) 0) (bytes.getD (i + 2) 0) (bytes.getD (i + 3) 0) = false)
    (hov1 : ¬ codepoint4 (bytes.getD i 0) (bytes.getD (i + 1) 0) (bytes.getD (i + 2) 0) (bytes.getD (i + 3) 0) > 0x10FFFF)
    (hov2 : ¬ codepoint4 (bytes.getD i 0) (bytes.getD (i + 1) 0) (bytes.getD (i + 2) 0) (bytes.getD (i + 3) 0) ≤ 0xFFFF) :
    validate_loop bytes i count = validate_loop bytes (i + 4) (count + 1) := by
  have h1 : i < bytes.length := by omega
  have h2 : ¬ bytes.getD i 0 < 0x80 := by omega
  have h3 : ¬ bytes.getD i 0 < 0xC0 := by omega
  have h4 : ¬ bytes.getD i 0 < 0xE0 := by omega
  have h5 : ¬ bytes.getD i 0 < 0xF0 := by omega
  have h6 : ¬ i + 3 ≥ bytes.length := by omega
  have h7 : ¬ cont_bad3 (bytes.getD (i + 1) 0) (bytes.getD (i + 2) 0) (bytes.getD (i + 3) 0) = true := by
    simp only [hc]; decide
  rw [validate_loop.eq_def, if_pos h1, if_neg h2, if_neg h3, if_neg h4, if_neg h5,
    if_pos hb2, if_neg h6, if_neg h7, if_neg hov1, if_neg hov2]

/-!  The shape of the encoder output in each length class. -/

theorem utf8EncodeChar_eq1 (c : Nat) (h : c < 0x80) : utf8EncodeChar c = [c] := by
  unfold utf8EncodeChar
  rw [if_pos h]

theorem utf8EncodeChar_eq2 (c : Nat) (h1 : 0x80 ≤ c) (h2 : c < 0x800) :
    utf8EncodeChar c = [0xC0 + c / 64, 0x80 + c % 64] := by
  unfold utf8EncodeChar
  rw [if_neg (by omega), if_pos h2]

theorem utf8EncodeChar_eq3 (c : Nat) (h1 : 0x800 ≤ c) (h2 : c < 0x10000) :
    utf8EncodeChar c = [0xE0 + c / 4096, 0x80 + c / 64 % 64, 0x80 + c % 64] := by
  unfold utf8EncodeChar
  rw [if_neg (by omega), if_neg (by omega), if_pos h2]

theorem utf8EncodeChar_eq4 (c : Nat) (h1 : 0x10000 ≤ c) :
    utf8EncodeChar c = [0xF0 + c / 262144, 0x80 + c / 4096 % 64, 0x80 + c / 64 % 64, 0x80 + c % 64] := by
  unfold utf8EncodeChar
  rw [if_neg (by omega), if_neg (by omega), if_neg (by omega)]

/-- Reading through a drop equation: the head byte and the rest. -/
theorem drop_cons_facts (bytes : List Nat) (i b : Nat) (rest : List Nat)
    (h : bytes.drop i = b :: rest) :
    i < bytes.length ∧ bytes.getD i 0 = b ∧ bytes.drop (i + 1) = rest := by
  have hlen : i < bytes.length := by
    by_contra hge
    push_neg at hge
    rw [List.drop_eq_nil_of_le hge] at h
    exact absurd h (by simp)
  refine ⟨hlen, ?_, ?_⟩
  · have h0 : bytes[i]? = some b := by
      have hd := List.getElem?_drop bytes i 0
      rw [h] at hd
      simpa using hd.symm
    simp [List.getD_eq_getElem?_getD, h0]
  · have hd := List.drop_drop 1 i bytes
    rw [h] at hd
    simpa using hd.symm

/-!  Consuming one encoded codepoint: validate_loop steps over the
minimal-length encoding of c and counts one codepoint. -/

theorem encode_step1 (bytes : List Nat) (i count c : Nat) (tail : List Nat)
    (hc : c < 0x80) (h : bytes.drop i = c :: tail) :
    validate_loop bytes i count = validate_loop bytes (i + 1) (count + 1) ∧
      bytes.drop (i + 1) = tail ∧ i + 1 ≤ bytes.length := by
  obtain ⟨h1, h2, h3⟩ := drop_cons_facts _ _ _ _ h
  exact ⟨validate_loop_step1 _ _ _ h1 (by omega), h3, by omega⟩

theorem encode_step2 (bytes : List Nat) (i count c : Nat) (tail : List Nat)
    (hc1 : 0x80 ≤ c) (hc2 : c < 0x800)
    (h : bytes.drop i = (0xC0 + c / 64) :: (0x80 + c % 64) :: tail) :
    validate_loop bytes i count = validate_loop bytes (i + 2) (count + 1) ∧
      bytes.drop (i + 2) = tail ∧ i + 2 ≤ bytes.length := by
  obtain ⟨h1, h2, h3⟩ := drop_cons_facts _ _ _ _ h
  obtain ⟨h4, h5, h6⟩ := drop_cons_facts _ _ _ _ h3
  have hdrop : bytes.drop (i + 2) = tail := by
    rw [show i + 2 = i + 1 + 1 from rfl]
    exact h6
  refine ⟨validate_loop_step2 _ _ _ (by omega) ?_ ?_ ?_ ?_, hdrop, by omega⟩
  · rw [h2]; omega
  · rw [h2]; omega
  · rw [h5]; exact cont_bad1_cont _ (by omega)
  · rw [h2, h5, codepoint2_eval c hc2]; omega

theorem encode_step3 (bytes : List Nat) (i count c : Nat) (tail : List Nat)
    (hc1 : 0x800 ≤ c) (hc2 : c < 0x10000)
    (h : bytes.drop i = (0xE0 + c / 4096) :: (0x80 + c / 64 % 64) :: (0x80 + c % 64) :: tail) :
    validate_loop bytes i count = validate_loop bytes (i + 3) (count + 1) ∧
      bytes.drop (i + 3) = tail ∧ i + 3 ≤ bytes.length := by
  obtain ⟨h1, h2, h3⟩ := drop_cons_facts _ _ _ _ h
  obtain ⟨h4, h5, h6⟩ := drop_cons_facts _ _ _ _ h3
  obtain ⟨h7, h8, h9⟩ := drop_cons_facts _ _ _ _ h6
  have hdrop : bytes.drop (i + 3) = tail := by
    rw [show i + 3 = i + 1 + 1 + 1 from rfl]
    exact h9
  refine ⟨validate_loop_step3 _ _ _ (by omega) ?_ ?_ ?_ ?_, hdrop, by omega⟩
  · rw [h2]; omega
  · rw [h2]; omega
  · rw [h5, h8]; exact cont_bad2_cont _ _ (by omega) (by omega)
  · rw [h2, h5, h8, codepoint3_eval c hc2]; omega

theorem encode_step4 (bytes : List Nat) (i count c : Nat) (tail : List Nat)
    (hc1 : 0x10000 ≤ c) (hc2 : c ≤ 0x10FFFF)
    (h : bytes.drop i = (0xF0 + c / 262144) :: (0x80 + c / 4096 % 64) :: (0x80 + c / 64 % 64) :: (0x80 + c % 64) :: tail) :
    validate_loop bytes i count = validate_loop bytes (i + 4) (count + 1) ∧
      bytes.drop (i + 4) = tail ∧ i + 4 ≤ bytes.length := by
  obtain ⟨h1, h2, h3⟩ := drop_cons_facts _ _ _ _ h
  obtain ⟨h4, h5, h6⟩ := drop_cons_facts _ _ _ _ h3
  obtain ⟨h7, h8, h9⟩ := drop_cons_facts _ _ _ _ h6
  obtain ⟨h10, h11, h12⟩ := drop_cons_facts _ _ _ _ h9
  have hdrop : bytes.drop (i + 4) = tail := by
    rw [show i + 4 = i + 1 + 1 + 1 + 1 from rfl]
    exact h12
  have hcp : codepoint4 (bytes.getD i 0) (bytes.getD (i + 1) 0) (bytes.getD (i + 2) 0) (bytes.getD (i + 3) 0) = c := by
    rw [h2, h5, h8, h11, codepoint4_eval c (by omega)]
  refine ⟨validate_loop_step4 _ _ _ (by omega) ?_ ?_ ?_ ?_ ?_, hdrop, by omega⟩
  · rw [h2]; omega
  · rw [h2]; omega
  · rw [h5, h8, h11]; exact cont_bad3_cont _ _ _ (by omega) (by omega) (by omega)
  · rw [hcp]; omega
  · rw [hcp]; omega

/-- validate_loop accepts the concatenation of minimal-length encodings
starting at offset i and counts exactly one codepoint per encoded
value. -/
theorem validate_loop_encode (cps : List Nat) : ∀ (bytes : List Nat) (i count : Nat),
    i ≤ bytes.length → bytes.drop i = utf8Encode cps → (∀ c ∈ cps, c ≤ 0x10FFFF) →
    validate_loop bytes i count = ⟨.success, bytes.length, count + cps.length⟩ := by
  induction cps with
  | nil =>
    intro bytes i count hle hdrop hall
    have hnil : bytes.drop i = [] := by simpa [utf8Encode] using hdrop
    have hge : bytes.length ≤ i := by
      by_contra hlt
      push_neg at hlt
      have : (bytes.drop i).length = bytes.length - i := List.length_drop i bytes
      rw [hnil] at this
      simp at this
      omega
    have hi : i = bytes.length := by omega
    rw [validate_loop_exit _ _ _ (by omega), hi]
    simp
  | cons c rest ih =>
    intro bytes i count hle hdrop hall
    have hcle : c ≤ 0x10FFFF := hall c (by simp)
    have hrest : ∀ x ∈ rest, x ≤ 0x10FFFF := fun x hx => hall x (by simp [hx])
    have hsplit : bytes.drop i = utf8EncodeChar c ++ utf8Encode rest := by
      simpa [utf8Encode] using hdrop
    have hfin : ∀ (j : Nat), validate_loop bytes j (count + 1) = ⟨.success, bytes.length, count + 1 + rest.length⟩ →
        validate_loop bytes j (count + 1) = ⟨.success, bytes.length, count + (c :: rest).length⟩ := by
      intro j hj
      rw [hj]
      simp only [validation_result.mk.injEq, List.length_cons]
      exact ⟨trivial, trivial, by omega⟩
    by_cases k1 : c < 0x80
    · rw [utf8EncodeChar_eq1 c k1] at hsplit
      obtain ⟨hstep, hdrop2, hle2⟩ := encode_step1 bytes i count c _ k1 (by simpa using hsplit)
      rw [hstep]
      exact hfin _ (ih bytes (i + 1) (count + 1) hle2 hdrop2 hrest)
    · by_cases k2 : c < 0x800
      · rw [utf8EncodeChar_eq2 c (by omega) k2] at hsplit
        obtain ⟨hstep, hdrop2, hle2⟩ := encode_step2 bytes i count c _ (by omega) k2 (by simpa using hsplit)
        rw [hstep]
        exact hfin _ (ih bytes (i + 2) (count + 1) hle2 hdrop2 hrest)
      · by_cases k3 : c < 0x10000
        · rw [utf8EncodeChar_eq3 c (by omega) k3] at hsplit
          obtain ⟨hstep, hdrop2, hle2⟩ := encode_step3 bytes i count c _ (by omega) k3 (by simpa using hsplit)
          rw [hstep]
          exact hfin _ (ih bytes (i + 3) (count + 1) hle2 hdrop2 hrest)
        · rw [utf8EncodeChar_eq4 c (by omega)] at hsplit
          obtain ⟨hstep, hdrop2, hle2⟩ := encode_step4 bytes i count c _ (by omega) hcle (by simpa using hsplit)
          rw [hstep]
          exact hfin _ (ih bytes (i + 4) (count + 1) hle2 hdrop2 hrest)

/-- validate_quick never fails with a semantic-validity error: its loop
only produces the structural error kinds. -/
theorem validate_quick_loop_error (bytes : List Nat) (i count : Nat) :
    (validate_quick_loop bytes i count).error ≠ .overlong_enocoding ∧
      (validate_quick_loop bytes i count).error ≠ .invalid_codepoint := by
  induction i, count using validate_quick_loop.induct bytes with
  | _ =>
    rw [validate_quick_loop.eq_def]
    simp_all only [ite_true, ite_false, ge_iff_le, Bool.not_eq_true]
    try simp_all
    try decide

/-- Whenever validate does not fail with an overlong-encoding or
invalid-codepoint error, validate_quick_loop takes exactly the same steps
and returns the same result; stated as an unconditional disjunction so
that it can be proved by the functional induction of validate_loop. -/
theorem validate_quick_loop_agrees (bytes : List Nat) (i count : Nat) :
    validate_quick_loop bytes i count = validate_loop bytes i count ∨
      (validate_loop bytes i count).error = .overlong_enocoding ∨
        (validate_loop bytes i count).error = .invalid_codepoint := by
  induction i, count using validate_loop.induct bytes with
  | _ =>
    rw [validate_loop.eq_def, validate_quick_loop.eq_def]
    simp_all only [ite_true, ite_false, ge_iff_le, Bool.not_eq_true]
    try simp_all
    try decide


/-- Arithmetic bounds respected by the result of the validate loop. -/
theorem validate_loop_range_bounds (bytes : List Nat) (i count : Nat) :
    i ≤ (validate_loop bytes i count).range_size ∧
    count ≤ (validate_loop bytes i count).codepoint_count ∧
    ((validate_loop bytes i count).range_size ≤ bytes.length ∨
      (validate_loop bytes i count).range_size = i) := by
  induction i, count using validate_loop.induct bytes with
  | _ =>
    rw [validate_loop.eq_def]
    simp_all only [ite_true, ite_false, ge_iff_le, Bool.not_eq_true,
      Bool.false_eq_true, Bool.true_eq_false, eq_self_iff_true, or_true, true_or,
      and_true, true_and, le_refl]
    try dsimp only
    try first
      | omega
      | trivial

/-- On success the prefix range covers the whole input (disjunctive
form). -/
theorem validate_loop_success_range (bytes : List Nat) (i count : Nat) :
    (validate_loop bytes i count).error ≠ .success ∨
      bytes.length ≤ (validate_loop bytes i count).range_size := by
  induction i, count using validate_loop.induct bytes with
  | _ =>
    rw [validate_loop.eq_def]
    simp_all only [ite_true, ite_false, ge_iff_le, Bool.not_eq_true,
      Bool.false_eq_true, Bool.true_eq_false, eq_self_iff_true, or_true, true_or,
      and_true, true_and, le_refl]
    try dsimp only
    try first
      | assumption
      | exact Or.inl (by decide)
      | exact Or.inr (by omega)

/-- On failure the prefix range stops strictly inside the input and the
byte at its end belongs to the class determined by the error kind
(disjunctive form). -/
theorem validate_loop_err_class (bytes : List Nat) (i count : Nat) :
    (validate_loop bytes i count).error = .success ∨
      ((validate_loop bytes i count).range_size < bytes.length ∧
        errByteClass (bytes.getD (validate_loop bytes i count).range_size 0)
          ((validate_loop bytes i count).error)) := by
  induction i, count using validate_loop.induct bytes with
  | _ =>
    rw [validate_loop.eq_def]
    simp_all only [ite_true, ite_false, ge_iff_le, Bool.not_eq_true,
      Bool.false_eq_true, Bool.true_eq_false, eq_self_iff_true, or_true, true_or,
      and_true, true_and, le_refl]
    try dsimp only
    try first
      | assumption
      | exact Or.inl rfl
      | exact Or.inr (by dsimp only [errByteClass]; omega)
      | exact Or.inr ⟨trivial, by dsimp only [errByteClass]; omega⟩
      | exact Or.inr ⟨by omega, by dsimp only [errByteClass]; omega⟩

/-- Arithmetic bounds respected by the result of the quick validate
loop. -/
theorem validate_quick_loop_range_bounds (bytes : List Nat) (i count : Nat) :
    i ≤ (validate_quick_loop bytes i count).range_size ∧
    count ≤ (validate_quick_loop bytes i count).codepoint_count ∧
    ((validate_quick_loop bytes i count).range_size ≤ bytes.length ∨
      (validate_quick_loop bytes i count).range_size = i) := by
  induction i, count using validate_quick_loop.induct bytes with
  | _ =>
    rw [validate_quick_loop.eq_def]
    simp_all only [ite_true, ite_false, ge_iff_le, Bool.not_eq_true,
      Bool.false_eq_true, Bool.true_eq_false, eq_self_iff_true, or_true, true_or,
      and_true, true_and, le_refl]
    try dsimp only
    try first
      | omega
      | trivial

/-- On success the quick loop prefix range covers the whole input
(disjunctive form). -/
theorem validate_quick_loop_success_range (bytes : List Nat) (i count : Nat) :
    (validate_quick_loop bytes i count).error ≠ .success ∨
      bytes.length ≤ (validate_quick_loop bytes i count).range_size := by
  induction i, count using validate_quick_loop.induct bytes with
  | _ =>
    rw [validate_quick_loop.eq_def]
    simp_all only [ite_true, ite_false, ge_iff_le, Bool.not_eq_true,
      Bool.false_eq_true, Bool.true_eq_false, eq_self_iff_true, or_true, true_or,
      and_true, true_and, le_refl]
    try dsimp only
    try first
      | assumption
      | exact Or.inl (by decide)
      | exact Or.inr (by omega)

/-- On failure the quick loop prefix range stops strictly inside the
input, with the same byte classes as validate (disjunctive form). -/
theorem validate_quick_loop_err_class (bytes : List Nat) (i count : Nat) :
    (validate_quick_loop bytes i count).error = .success ∨
      ((validate_quick_loop bytes i count).range_size < bytes.length ∧
        errByteClass (bytes.getD (validate_quick_loop bytes i count).range_size 0)
          ((validate_quick_loop bytes i count).error)) := by
  induction i, count using validate_quick_loop.induct bytes with
  | _ =>
    rw [validate_quick_loop.eq_def]
    simp_all only [ite_true, ite_false, ge_iff_le, Bool.not_eq_true,
      Bool.false_eq_true, Bool.true_eq_false, eq_self_iff_true, or_true, true_or,
      and_true, true_and, le_refl]
    try dsimp only
    try first
      | assumption
      | exact Or.inl rfl
      | exact Or.inr (by dsimp only [errByteClass]; omega)
      | exact Or.inr ⟨trivial, by dsimp only [errByteClass]; omega⟩
      | exact Or.inr ⟨by omega, by dsimp only [errByteClass]; omega⟩

theorem getD_take (l : List Nat) (n j : Nat) (h : j < n) :
    (l.take n).getD j 0 = l.getD j 0 := by
  simp [List.getD_eq_getElem?_getD, List.getElem?_take_of_lt h]

/-!  One-step unfolding lemmas for validate_quick_loop. -/

theorem validate_quick_loop_exit (bytes : List Nat) (i count : Nat) (hge : ¬ i < bytes.length) :
    validate_quick_loop bytes i count = ⟨.success, i, count⟩ := by
  rw [validate_quick_loop.eq_def, if_neg hge]

theorem validate_quick_loop_step1 (bytes : List Nat) (i count : Nat)
    (hlt : i < bytes.length) (hb : bytes.getD i 0 < 0x80) :
    validate_quick_loop bytes i count = validate_quick_loop bytes (i + 1) (count + 1) := by
  rw [validate_quick_loop.eq_def, if_pos hlt, if_pos hb]

theorem validate_quick_loop_step2 (bytes : List Nat) (i count : Nat)
    (hlt : i + 1 < bytes.length)
    (hb1 : 0xC0 ≤ bytes.getD i 0) (hb2 : bytes.getD i 0 < 0xE0)
    (hc : cont_bad1 (bytes.getD (i + 1) 0) = false) :
    validate_quick_loop bytes i count = validate_quick_loop bytes (i + 2) (count + 1) := by
  have h1 : i < bytes.length := by omega
  have h2 : ¬ bytes.getD i 0 < 0x80 := by omega
  have h3 : ¬ bytes.getD i 0 < 0xC0 := by omega
  have h4 : ¬ i + 1 ≥ bytes.length := by omega
  have h5 : ¬ cont_bad1 (bytes.getD (i + 1) 0) = true := by simp only [hc]; decide
  rw [validate_quick_loop.eq_def, if_pos h1, if_neg h2, if_neg h3, if_pos hb2, if_neg h4,
    if_neg h5]

theorem validate_quick_loop_step3 (bytes : List Nat) (i count : Nat)
    (hlt : i + 2 < bytes.length)
    (hb1 : 0xE0 ≤ bytes.getD i 0) (hb2 : bytes.getD i 0 < 0xF0)
    (hc : cont_bad2 (bytes.getD (i + 1) 0) (bytes.getD (i + 2) 0) = false) :
    validate_quick_loop bytes i count = validate_quick_loop bytes (i + 3) (count + 1) := by
  have h1 : i < bytes.length := by omega
  have h2 : ¬ bytes.getD i 0 < 0x80 := by omega
  have h3 : ¬ bytes.getD i 0 < 0xC0 := by omega
  have h4 : ¬ bytes.getD i 0 < 0xE0 := by omega
  have h5 : ¬ i + 2 ≥ bytes.length := by omega
  have h6 : ¬ cont_bad2 (bytes.getD (i + 1) 0) (bytes.getD (i + 2) 0) = true := by
    simp only [hc]; decide
  rw [validate_quick_loop.eq_def, if_pos h1, if_neg h2, if_neg h3, if_neg h4, if_pos hb2,
    if_neg h5, if_neg h6]

theorem validate_quick_loop_step4 (bytes : List Nat) (i count : Nat)
    (hlt : i + 3 < bytes.length)
    (hb1 : 0xF0 ≤ bytes.getD i 0) (hb2 : bytes.getD i 0 < 0xF8)
    (hc : cont_bad3 (bytes.getD (i + 1) 0) (bytes.getD (i + 2) 0) (bytes.getD (i + 3) 0) = false) :
    validate_quick_loop bytes i count = validate_quick_loop bytes (i + 4) (count + 1) := by
  have h1 : i < bytes.length := by omega
  have h2 : ¬ bytes.getD i 0 < 0x80 := by omega
  have h3 : ¬ bytes.getD i 0 < 0xC0 := by omega
  have h4 : ¬ bytes.getD i 0 < 0xE0 := by omega
  have h5 : ¬ bytes.getD i 0 < 0xF0 := by omega
  have h6 : ¬ i + 3 ≥ bytes.length := by omega
  have h7 : ¬ cont_bad3 (bytes.getD (i + 1) 0) (bytes.getD (i + 2) 0) (bytes.getD (i + 3) 0) = true := by
    simp only [hc]; decide
  rw [validate_quick_loop.eq_def, if_pos h1, if_neg h2, if_neg h3, if_neg h4, if_neg h5,
    if_pos hb2, if_neg h6, if_neg h7]

/-- The prefix of the input up to the returned range size validates
cleanly with exactly the returned codepoint count: codepoint_count counts
the codepoints fully decoded strictly before the failure offset. -/
theorem validate_loop_take (bytes : List Nat) (i count : Nat) :
    validate_loop (bytes.take (validate_loop bytes i count).range_size) i count
      = ⟨.success, (validate_loop bytes i count).range_size,
          (validate_loop bytes i count).codepoint_count⟩ := by
  induction i, count using validate_loop.induct bytes with
  | case1 i count h1 h2 ih =>
    rw [validate_loop_step1 bytes i count h1 h2]
    have hb := (validate_loop_range_bounds bytes (i + 1) (count + 1)).1
    rw [validate_loop_step1 (bytes.take (validate_loop bytes (i + 1) (count + 1)).range_size) i count
      (by rw [List.length_take]; omega)
      (by rw [getD_take _ _ _ (by omega)]; exact h2)]
    exact ih
  | case2 i count h1 h2 h3 =>
    have hres : validate_loop bytes i count = ⟨.unexpected_continuation_byte, i, count⟩ := by
      rw [validate_loop.eq_def, if_pos h1, if_neg h2, if_pos h3]
    rw [hres]
    dsimp only
    exact validate_loop_exit _ _ _ (by rw [List.length_take]; omega)
  | case3 i count h1 h2 h3 h4 h5 =>
    have hres : validate_loop bytes i count = ⟨.unexpected_end, i, count⟩ := by
      rw [validate_loop.eq_def, if_pos h1, if_neg h2, if_neg h3, if_pos h4, if_pos h5]
    rw [hres]
    dsimp only
    exact validate_loop_exit _ _ _ (by rw [List.length_take]; omega)
  | case4 i count h1 h2 h3 h4 h5 h6 =>
    have hres : validate_loop bytes i count = ⟨.unexpected_non_continuation_byte, i, count⟩ := by
      rw [validate_loop.eq_def, if_pos h1, if_neg h2, if_neg h3, if_pos h4, if_neg h5, if_pos h6]
    rw [hres]
    dsimp only
    exact validate_loop_exit _ _ _ (by rw [List.length_take]; omega)
  | case5 i count h1 h2 h3 h4 h5 h6 h7 =>
    have hres : validate_loop bytes i count = ⟨.overlong_enocoding, i, count⟩ := by
      rw [validate_loop.eq_def, if_pos h1, if_neg h2, if_neg h3, if_pos h4, if_neg h5, if_neg h6,
        if_pos h7]
    rw [hres]
    dsimp only
    exact validate_loop_exit _ _ _ (by rw [List.length_take]; omega)
  | case6 i count h1 h2 h3 h4 h5 h6 h7 ih =>
    rw [validate_loop_step2 bytes i count (by omega) (by omega) h4 (by simpa using h6) h7]
    have hb := (validate_loop_range_bounds bytes (i + 2) (count + 1)).1
    rw [validate_loop_step2 (bytes.take (validate_loop bytes (i + 2) (count + 1)).range_size) i count
      (by rw [List.length_take]; omega)
      (by rw [getD_take _ _ _ (by omega)]; omega)
      (by rw [getD_take _ _ _ (by omega)]; exact h4)
      (by rw [getD_take _ _ _ (by omega)]; simpa using h6)
      (by rw [getD_take _ _ _ (by omega), getD_take _ _ _ (by omega)]; exact h7)]
    exact ih
  | case7 i count h1 h2 h3 h4 h5 h6 =>
    have hres : validate_loop bytes i count = ⟨.unexpected_end, i, count⟩ := by
      rw [validate_loop.eq_def, if_pos h1, if_neg h2, if_neg h3, if_neg h4, if_pos h5, if_pos h6]
    rw [hres]
    dsimp only
    exact validate_loop_exit _ _ _ (by rw [List.length_take]; omega)
  | case8 i count h1 h2 h3 h4 h5 h6 h7 =>
    have hres : validate_loop bytes i count = ⟨.unexpected_non_continuation_byte, i, count⟩ := by
      rw [validate_loop.eq_def, if_pos h1, if_neg h2, if_neg h3, if_neg h4, if_pos h5, if_neg h6,
        if_pos h7]
    rw [hres]
    dsimp only
    exact validate_loop_exit _ _ _ (by rw [List.length_take]; omega)
  | case9 i count h1 h2 h3 h4 h5 h6 h7 h8 =>
    have hres : validate_loop bytes i count = ⟨.overlong_enocoding, i, count⟩ := by
      rw [validate_loop.eq_def, if_pos h1, if_neg h2, if_neg h3, if_neg h4, if_pos h5, if_neg h6,
        if_neg h7, if_pos h8]
    rw [hres]
    dsimp only
    exact validate_loop_exit _ _ _ (by rw [List.length_take]; omega)
  | case10 i count h1 h2 h3 h4 h5 h6 h7 h8 ih =>
    rw [validate_loop_step3 bytes i count (by omega) (by omega) h5 (by simpa using h7) h8]
    have hb := (validate_loop_range_bounds bytes (i + 3) (count + 1)).1
    rw [validate_loop_step3 (bytes.take (validate_loop bytes (i + 3) (count + 1)).range_size) i count
      (by rw [List.length_take]; omega)
      (by rw [getD_take _ _ _ (by omega)]; omega)
      (by rw [getD_take _ _ _ (by omega)]; exact h5)
      (by rw [getD_take _ _ _ (by omega), getD_take _ _ _ (by omega)]; simpa using h7)
      (by rw [getD_take _ _ _ (by omega), getD_take _ _ _ (by omega), getD_take _ _ _ (by omega)]
          exact h8)]
    exact ih
  | case11 i count h1 h2 h3 h4 h5 h6 h7 =>
    have hres : validate_loop bytes i count = ⟨.unexpected_end, i, count⟩ := by
      rw [validate_loop.eq_def, if_pos h1, if_neg h2, if_neg h3, if_neg h4, if_neg h5, if_pos h6,
        if_pos h7]
    rw [hres]
    dsimp only
    exact validate_loop_exit _ _ _ (by rw [List.length_take]; omega)
  | case12 i count h1 h2 h3 h4 h5 h6 h7 h8 =>
    have hres : validate_loop bytes i count = ⟨.unexpected_non_continuation_byte, i, count⟩ := by
      rw [validate_loop.eq_def, if_pos h1, if_neg h2, if_neg h3, if_neg h4, if_neg h5, if_pos h6,
        if_neg h7, if_pos h8]
    rw [hres]
    dsimp only
    exact validate_loop_exit _ _ _ (by rw [List.length_take]; omega)
  | case13 i count h1 h2 h3 h4 h5 h6 h7 h8 h9 =>
    have hres : validate_loop bytes i count = ⟨.invalid_codepoint, i, count⟩ := by
      rw [validate_loop.eq_def, if_pos h1, if_neg h2, if_neg h3, if_neg h4, if_neg h5, if_pos h6,
        if_neg h7, if_neg h8, if_pos h9]
    rw [hres]
    dsimp only
    exact validate_loop_exit _ _ _ (by rw [List.length_take]; omega)
  | case14 i count h1 h2 h3 h4 h5 h6 h7 h8 h9 h10 =>
    have hres : validate_loop bytes i count = ⟨.overlong_enocoding, i, count⟩ := by
      rw [validate_loop.eq_def, if_pos h1, if_neg h2, if_neg h3, if_neg h4, if_neg h5, if_pos h6,
        if_neg h7, if_neg h8, if_neg h9, if_pos h10]
    rw [hres]
    dsimp only
    exact validate_loop_exit _ _ _ (by rw [List.length_take]; omega)
  | case15 i count h1 h2 h3 h4 h5 h6 h7 h8 h9 h10 ih =>
    rw [validate_loop_step4 bytes i count (by omega) (by omega) h6 (by simpa using h8) h9 h10]
    have hb := (validate_loop_range_bounds bytes (i + 4) (count + 1)).1
    rw [validate_loop_step4 (bytes.take (validate_loop bytes (i + 4) (count + 1)).range_size) i count
      (by rw [List.length_take]; omega)
      (by rw [getD_take _ _ _ (by omega)]; omega)
      (by rw [getD_take _ _ _ (by omega)]; exact h6)
      (by rw [getD_take _ _ _ (by omega), getD_take _ _ _ (by omega), getD_take _ _ _ (by omega)]
          simpa using h8)
      (by rw [getD_take _ _ _ (by omega), getD_take _ _ _ (by omega), getD_take _ _ _ (by omega),
           getD_take _ _ _ (by omega)]
          exact h9)
      (by rw [getD_take _ _ _ (by omega), getD_take _ _ _ (by omega), getD_take _ _ _ (by omega),
           getD_take _ _ _ (by omega)]
          exact h10)]
    exact ih
  | case16 i count h1 h2 h3 h4 h5 h6 =>
    have hres : validate_loop bytes i count = ⟨.invalid_byte, i, count⟩ := by
      rw [validate_loop.eq_def, if_pos h1, if_neg h2, if_neg h3, if_neg h4, if_neg h5, if_neg h6]
    rw [hres]
    dsimp only
    exact validate_loop_exit _ _ _ (by rw [List.length_take]; omega)
  | case17 i count h1 =>
    rw [validate_loop_exit bytes i count h1]
    dsimp only
    exact validate_loop_exit _ _ _ (by rw [List.length_take]; omega)

/-- Quick-validator version of validate_loop_take. -/
theorem validate_quick_loop_take (bytes : List Nat) (i count : Nat) :
    validate_quick_loop (bytes.take (validate_quick_loop bytes i count).range_size) i count
      = ⟨.success, (validate_quick_loop bytes i count).range_size,
          (validate_quick_loop bytes i count).codepoint_count⟩ := by
  induction i, count using validate_quick_loop.induct bytes with
  | case1 i count h1 h2 ih =>
    rw [validate_quick_loop_step1 bytes i count h1 h2]
    have hb := (validate_quick_loop_range_bounds bytes (i + 1) (count + 1)).1
    rw [validate_quick_loop_step1 (bytes.take (validate_quick_loop bytes (i + 1) (count + 1)).range_size) i count
      (by rw [List.length_take]; omega)
      (by rw [getD_take _ _ _ (by omega)]; exact h2)]
    exact ih
  | case2 i count h1 h2 h3 =>
    have hres : validate_quick_loop bytes i count = ⟨.unexpected_continuation_byte, i, count⟩ := by
      rw [validate_quick_loop.eq_def, if_pos h1, if_neg h2, if_pos h3]
    rw [hres]
    dsimp only
    exact validate_quick_loop_exit _ _ _ (by rw [List.length_take]; omega)
  | case3 i count h1 h2 h3 h4 h5 =>
    have hres : validate_quick_loop bytes i count = ⟨.unexpected_end, i, count⟩ := by
      rw [validate_quick_loop.eq_def, if_pos h1, if_neg h2, if_neg h3, if_pos h4, if_pos h5]
    rw [hres]
    dsimp only
    exact validate_quick_loop_exit _ _ _ (by rw [List.length_take]; omega)
  | case4 i count h1 h2 h3 h4 h5 h6 =>
    have hres : validate_quick_loop bytes i count = ⟨.unexpected_non_continuation_byte, i, count⟩ := by
      rw [validate_quick_loop.eq_def, if_pos h1, if_neg h2, if_neg h3, if_pos h4, if_neg h5,
        if_pos h6]
    rw [hres]
    dsimp only
    exact validate_quick_loop_exit _ _ _ (by rw [List.length_take]; omega)
  | case5 i count h1 h2 h3 h4 h5 h6 ih =>
    rw [validate_quick_loop_step2 bytes i count (by omega) (by omega) h4 (by simpa using h6)]
    have hb := (validate_quick_loop_range_bounds bytes (i + 2) (count + 1)).1
    rw [validate_quick_loop_step2 (bytes.take (validate_quick_loop bytes (i + 2) (count + 1)).range_size) i count
      (by rw [List.length_take]; omega)
      (by rw [getD_take _ _ _ (by omega)]; omega)
      (by rw [getD_take _ _ _ (by omega)]; exact h4)
      (by rw [getD_take _ _ _ (by omega)]; simpa using h6)]
    exact ih
  | case6 i count h1 h2 h3 h4 h5 h6 =>
    have hres : validate_quick_loop bytes i count = ⟨.unexpected_end, i, count⟩ := by
      rw [validate_quick_loop.eq_def, if_pos h1, if_neg h2, if_neg h3, if_neg h4, if_pos h5,
        if_pos h6]
    rw [hres]
    dsimp only
    exact validate_quick_loop_exit _ _ _ (by rw [List.length_take]; omega)
  | case7 i count h1 h2 h3 h4 h5 h6 h7 =>
    have hres : validate_quick_loop bytes i count = ⟨.unexpected_non_continuation_byte, i, count⟩ := by
      rw [validate_quick_loop.eq_def, if_pos h1, if_neg h2, if_neg h3, if_neg h4, if_pos h5,
        if_neg h6, if_pos h7]
    rw [hres]
    dsimp only
    exact validate_quick_loop_exit _ _ _ (by rw [List.length_take]; omega)
  | case8 i count h1 h2 h3 h4 h5 h6 h7 ih =>
    rw [validate_quick_loop_step3 bytes i count (by omega) (by omega) h5 (by simpa using h7)]
    have hb := (validate_quick_loop_range_bounds bytes (i + 3) (count + 1)).1
    rw [validate_quick_loop_step3 (bytes.take (validate_quick_loop bytes (i + 3) (count + 1)).range_size) i count
      (by rw [List.length_take]; omega)
      (by rw [getD_take _ _ _ (by omega)]; omega)
      (by rw [getD_take _ _ _ (by omega)]; exact h5)
      (by rw [getD_take _ _ _ (by omega), getD_take _ _ _ (by omega)]; simpa using h7)]
    exact ih
  | case9 i count h1 h2 h3 h4 h5 h6 h7 =>
    have hres : validate_quick_loop bytes i count = ⟨.unexpected_end, i, count⟩ := by
      rw [validate_quick_loop.eq_def, if_pos h1, if_neg h2, if_neg h3, if_neg h4, if_neg h5,
        if_pos h6, if_pos h7]
    rw [hres]
    dsimp only
    exact validate_quick_loop_exit _ _ _ (by rw [List.length_take]; omega)
  | case10 i count h1 h2 h3 h4 h5 h6 h7 h8 =>
    have hres : validate_quick_loop bytes i count = ⟨.unexpected_non_continuation_byte, i, count⟩ := by
      rw [validate_quick_loop.eq_def, if_pos h1, if_neg h2, if_neg h3, if_neg h4, if_neg h5,
        if_pos h6, if_neg h7, if_pos h8]
    rw [hres]
    dsimp only
    exact validate_quick_loop_exit _ _ _ (by rw [List.length_take]; omega)
  | case11 i count h1 h2 h3 h4 h5 h6 h7 h8 ih =>
    rw [validate_quick_loop_step4 bytes i count (by omega) (by omega) h6 (by simpa using h8)]
    have hb := (validate_quick_loop_range_bounds bytes (i + 4) (count + 1)).1
    rw [validate_quick_loop_step4 (bytes.take (validate_quick_loop bytes (i + 4) (count + 1)).range_size) i count
      (by rw [List.length_take]; omega)
      (by rw [getD_take _ _ _ (by omega)]; omega)
      (by rw [getD_take _ _ _ (by omega)]; exact h6)
      (by rw [getD_take _ _ _ (by omega), getD_take _ _ _ (by omega), getD_take _ _ _ (by omega)]
          simpa using h8)]
    exact ih
  | case12 i count h1 h2 h3 h4 h5 h6 =>
    have hres : validate_quick_loop bytes i count = ⟨.invalid_byte, i, count⟩ := by
      rw [validate_quick_loop.eq_def, if_pos h1, if_neg h2, if_neg h3, if_neg h4, if_neg h5,
        if_neg h6]
    rw [hres]
    dsimp only
    exact validate_quick_loop_exit _ _ _ (by rw [List.length_take]; omega)
  | case13 i count h1 =>
    rw [validate_quick_loop_exit bytes i count h1]
    dsimp only
    exact validate_quick_loop_exit _ _ _ (by rw [List.length_take]; omega)


/-!  One-step unfolding lemmas for the decoding iterator. -/

theorem iter_next_1 (bytes : List Nat) (pos : Nat) (h : bytes.getD pos 0 ≤ 0x7F) :
    iter_next bytes pos = pos + 1 := by
  unfold iter_next
  rw [if_pos h]

theorem iter_next_2 (bytes : List Nat) (pos : Nat)
    (h1 : 0xC0 ≤ bytes.getD pos 0) (h2 : bytes.getD pos 0 ≤ 0xDF) :
    iter_next bytes pos = pos + 2 := by
  unfold iter_next
  rw [if_neg (by omega), if_neg (by omega), if_pos h2]

theorem iter_next_3 (bytes : List Nat) (pos : Nat)
    (h1 : 0xE0 ≤ bytes.getD pos 0) (h2 : bytes.getD pos 0 ≤ 0xEF) :
    iter_next bytes pos = pos + 3 := by
  unfold iter_next
  rw [if_neg (by omega), if_neg (by omega), if_neg (by omega), if_pos h2]

theorem iter_next_4 (bytes : List Nat) (pos : Nat)
    (h1 : 0xF0 ≤ bytes.getD pos 0) (h2 : bytes.getD pos 0 ≤ 0xF7) :
    iter_next bytes pos = pos + 4 := by
  unfold iter_next
  rw [if_neg (by omega), if_neg (by omega), if_neg (by omega), if_neg (by omega), if_pos h2]

theorem iter_deref_1 (bytes : List Nat) (pos : Nat) (h : bytes.getD pos 0 < 0x80) :
    iter_deref bytes pos = bytes.getD pos 0 := by
  unfold iter_deref
  rw [if_pos h]

theorem iter_deref_2 (bytes : List Nat) (pos : Nat)
    (h1 : 0x80 ≤ bytes.getD pos 0) (h2 : bytes.getD pos 0 < 0xE0) :
    iter_deref bytes pos = codepoint2 (bytes.getD pos 0) (bytes.getD (pos + 1) 0) := by
  unfold iter_deref
  rw [if_neg (by omega), if_pos h2]

theorem iter_deref_3 (bytes : List Nat) (pos : Nat)
    (h1 : 0xE0 ≤ bytes.getD pos 0) (h2 : bytes.getD pos 0 < 0xF0) :
    iter_deref bytes pos
      = codepoint3 (bytes.getD pos 0) (bytes.getD (pos + 1) 0) (bytes.getD (pos + 2) 0) := by
  unfold iter_deref
  rw [if_neg (by omega), if_neg (by omega), if_pos h2]

theorem iter_deref_4 (bytes : List Nat) (pos : Nat) (h1 : 0xF0 ≤ bytes.getD pos 0) :
    iter_deref bytes pos
      = codepoint4 (bytes.getD pos 0) (bytes.getD (pos + 1) 0) (bytes.getD (pos + 2) 0)
          (bytes.getD (pos + 3) 0) := by
  unfold iter_deref
  rw [if_neg (by omega), if_neg (by omega), if_neg (by omega)]

/-- On an input accepted by the validate loop, iterating the decoder for
the remaining codepoint count moves the cursor from offset i exactly to
the end of the accepted range. -/
theorem iterate_decode_end (bytes : List Nat) (i count : Nat) :
    (validate_loop bytes i count).error = .success →
    (iterate_decode bytes i
        ((validate_loop bytes i count).codepoint_count - count)).2
      = (validate_loop bytes i count).range_size := by
  induction i, count using validate_loop.induct bytes with
  | case1 i count h1 h2 ih =>
    rw [validate_loop_step1 bytes i count h1 h2]
    intro hs
    have hcb := (validate_loop_range_bounds bytes (i + 1) (count + 1)).2.1
    rw [show (validate_loop bytes (i + 1) (count + 1)).codepoint_count - count
        = ((validate_loop bytes (i + 1) (count + 1)).codepoint_count - (count + 1)) + 1
      from by omega]
    simp only [iterate_decode]
    rw [iter_next_1 bytes i (by omega)]
    exact ih hs
  | case6 i count h1 h2 h3 h4 h5 h6 h7 ih =>
    rw [validate_loop_step2 bytes i count (by omega) (by omega) h4 (by simpa using h6) h7]
    intro hs
    have hcb := (validate_loop_range_bounds bytes (i + 2) (count + 1)).2.1
    rw [show (validate_loop bytes (i + 2) (count + 1)).codepoint_count - count
        = ((validate_loop bytes (i + 2) (count + 1)).codepoint_count - (count + 1)) + 1
      from by omega]
    simp only [iterate_decode]
    rw [iter_next_2 bytes i (by omega) (by omega)]
    exact ih hs
  | case10 i count h1 h2 h3 h4 h5 h6 h7 h8 ih =>
    rw [validate_loop_step3 bytes i count (by omega) (by omega) h5 (by simpa using h7) h8]
    intro hs
    have hcb := (validate_loop_range_bounds bytes (i + 3) (count + 1)).2.1
    rw [show (validate_loop bytes (i + 3) (count + 1)).codepoint_count - count
        = ((validate_loop bytes (i + 3) (count + 1)).codepoint_count - (count + 1)) + 1
      from by omega]
    simp only [iterate_decode]
    rw [iter_next_3 bytes i (by omega) (by omega)]
    exact ih hs
  | case15 i count h1 h2 h3 h4 h5 h6 h7 h8 h9 h10 ih =>
    rw [validate_loop_step4 bytes i count (by omega) (by omega) h6 (by simpa using h8) h9 h10]
    intro hs
    have hcb := (validate_loop_range_bounds bytes (i + 4) (count + 1)).2.1
    rw [show (validate_loop bytes (i + 4) (count + 1)).codepoint_count - count
        = ((validate_loop bytes (i + 4) (count + 1)).codepoint_count - (count + 1)) + 1
      from by omega]
    simp only [iterate_decode]
    rw [iter_next_4 bytes i (by omega) (by omega)]
    exact ih hs
  | case17 i count h1 =>
    rw [validate_loop_exit bytes i count h1]
    intro hs
    simp [iterate_decode]
  | _ =>
    rw [validate_loop.eq_def]
    simp_all only [ite_true, ite_false, ge_iff_le, Bool.not_eq_true,
      Bool.false_eq_true, Bool.true_eq_false, eq_self_iff_true, or_true, true_or,
      and_true, true_and, le_refl]
    try dsimp only
    try intro hs
    try exact absurd hs (by decide)
    try simp_all

/-- Decoding n iterations over the minimal-length encoding of a list of
codepoints returns exactly those codepoints and stops at the end of the
encoded bytes. -/
theorem iterate_decode_encode (cps : List Nat) : ∀ (bytes : List Nat) (pos : Nat),
    bytes.drop pos = utf8Encode cps → (∀ c ∈ cps, c ≤ 0x10FFFF) →
    iterate_decode bytes pos cps.length = (cps, pos + (utf8Encode cps).length) := by
  induction cps with
  | nil =>
    intro bytes pos hdrop hall
    simp [utf8Encode, iterate_decode]
  | cons c rest ih =>
    intro bytes pos hdrop hall
    have hcle : c ≤ 0x10FFFF := hall c (by simp)
    have hrest : ∀ x ∈ rest, x ≤ 0x10FFFF := fun x hx => hall x (by simp [hx])
    have hsplit : bytes.drop pos = utf8EncodeChar c ++ utf8Encode rest := by
      simpa [utf8Encode] using hdrop
    have hlenc : (utf8Encode (c :: rest)).length
        = (utf8EncodeChar c).length + (utf8Encode rest).length := by
      simp [utf8Encode]
    by_cases k1 : c < 0x80
    · rw [utf8EncodeChar_eq1 c k1] at hsplit hlenc
      obtain ⟨p1, p2, p3⟩ := drop_cons_facts _ _ _ _ (by simpa using hsplit)
      rw [List.length_cons]
      simp only [iterate_decode]
      rw [iter_next_1 bytes pos (by omega), iter_deref_1 bytes pos (by omega), p2,
        ih bytes (pos + 1) p3 hrest]
      simp only [Prod.mk.injEq, List.cons.injEq]
      refine ⟨trivial, ?_⟩
      rw [hlenc]
      simp
      omega
    · by_cases k2 : c < 0x800
      · rw [utf8EncodeChar_eq2 c (by omega) k2] at hsplit hlenc
        obtain ⟨p1, p2, p3⟩ := drop_cons_facts _ _ _ _ (by simpa using hsplit)
        obtain ⟨p4, p5, p6⟩ := drop_cons_facts _ _ _ _ p3
        have hdrop2 : bytes.drop (pos + 2) = utf8Encode rest := by
          rw [show pos + 2 = pos + 1 + 1 from rfl]
          exact p6
        rw [List.length_cons]
        simp only [iterate_decode]
        rw [iter_next_2 bytes pos (by omega) (by omega),
          iter_deref_2 bytes pos (by omega) (by omega), p2, p5, codepoint2_eval c k2,
          ih bytes (pos + 2) hdrop2 hrest]
        simp only [Prod.mk.injEq, List.cons.injEq]
        refine ⟨trivial, ?_⟩
        rw [hlenc]
        simp
        omega
      · by_cases k3 : c < 0x10000
        · rw [utf8EncodeChar_eq3 c (by omega) k3] at hsplit hlenc
          obtain ⟨p1, p2, p3⟩ := drop_cons_facts _ _ _ _ (by simpa using hsplit)
          obtain ⟨p4, p5, p6⟩ := drop_cons_facts _ _ _ _ p3
          obtain ⟨p7, p8, p9⟩ := drop_cons_facts _ _ _ _ p6
          have hdrop2 : bytes.drop (pos + 3) = utf8Encode rest := by
            rw [show pos + 3 = pos + 1 + 1 + 1 from rfl]
            exact p9
          rw [List.length_cons]
          simp only [iterate_decode]
          rw [iter_next_3 bytes pos (by omega) (by omega),
            iter_deref_3 bytes pos (by omega) (by omega), p2, p5, p8, codepoint3_eval c k3,
            ih bytes (pos + 3) hdrop2 hrest]
          simp only [Prod.mk.injEq, List.cons.injEq]
          refine ⟨trivial, ?_⟩
          rw [hlenc]
          simp
          omega
        · rw [utf8EncodeChar_eq4 c (by omega)] at hsplit hlenc
          obtain ⟨p1, p2, p3⟩ := drop_cons_facts _ _ _ _ (by simpa using hsplit)
          obtain ⟨p4, p5, p6⟩ := drop_cons_facts _ _ _ _ p3
          obtain ⟨p7, p8, p9⟩ := drop_cons_facts _ _ _ _ p6
          obtain ⟨p10, p11, p12⟩ := drop_cons_facts _ _ _ _ p9
          have hdrop2 : bytes.drop (pos + 4) = utf8Encode rest := by
            rw [show pos + 4 = pos + 1 + 1 + 1 + 1 from rfl]
            exact p12
          have hb1 : 0xF0 ≤ bytes.getD pos 0 := by rw [p2]; omega
          rw [List.length_cons]
          simp only [iterate_decode]
          rw [iter_next_4 bytes pos (by omega) (by rw [p2]; omega),
            iter_deref_4 bytes pos hb1, p2, p5, p8, p11, codepoint4_eval c (by omega),
            ih bytes (pos + 4) hdrop2 hrest]
          simp only [Prod.mk.injEq, List.cons.injEq]
          refine ⟨trivial, ?_⟩
          rw [hlenc]
          simp
          omega


/-- Claim C1: for every well-formed UTF-8 byte range, the concatenation of
minimal-length UTF-8 encodings of Unicode scalar values, validate returns
the success error kind, with codepoint_count equal to the number of
scalar values encoded and the returned prefix range spanning the entire
input. -/
theorem validate_wellformed_roundtrip (cps : List Nat) (h : ∀ c ∈ cps, IsScalar c) :
    validate (utf8Encode cps) = ⟨.success, (utf8Encode cps).length, cps.length⟩ := by
  have hall : ∀ c ∈ cps, c ≤ 0x10FFFF := fun c hc => (h c hc).1
  have hmain := validate_loop_encode cps (utf8Encode cps) 0 0 (by omega) (by simp) hall
  simpa [validate] using hmain

/-- Witness for claim C1 at a concrete four-codepoint input. -/
theorem validate_wellformed_roundtrip_witness :
    validate (utf8Encode [0x41, 0xE9, 0x2603, 0x1F600]) =
      ⟨.success, (utf8Encode [0x41, 0xE9, 0x2603, 0x1F600]).length, 4⟩ :=
  validate_wellformed_roundtrip [0x41, 0xE9, 0x2603, 0x1F600] (by decide)

/-- Claim C2 (code bug evidence): the two-byte sequence C1 BF is a
structurally well-formed 2-byte sequence whose decoded value 0x7F is in
the overlong range (a 2-byte sequence is overlong for every value up to
0x7F), yet validate accepts it, because the source tests
codepoint < 0x7F instead of codepoint <= 0x7F.  The neighbouring value
0x7E (bytes C1 BE) is rejected as the claim requires. -/
theorem validate_accepts_overlong_c1bf :
    cont_bad1 0xBF = false ∧
    codepoint2 0xC1 0xBF = 0x7F ∧
    validate [0xC1, 0xBF] = ⟨.success, 2, 1⟩ ∧
    validate [0xC1, 0xBE] = ⟨.overlong_enocoding, 0, 0⟩ := by
  refine ⟨by decide, by decide, ?_, ?_⟩ <;>
    · simp [validate, validate_loop, cont_bad1, codepoint2]
      try decide

/-- Claim C4: validate_quick never returns overlong_enocoding or
invalid_codepoint, and whenever validate returns any other result kind
(including success) validate_quick returns the identical result; on the
overlong NUL [C0, 80] the two validators disagree exactly as stated. -/
theorem validate_quick_refines_validate :
    (∀ bytes : List Nat, (validate_quick bytes).error ≠ .overlong_enocoding ∧
        (validate_quick bytes).error ≠ .invalid_codepoint) ∧
    (∀ bytes : List Nat, (validate bytes).error ≠ .overlong_enocoding →
        (validate bytes).error ≠ .invalid_codepoint →
        validate_quick bytes = validate bytes) ∧
    validate [0xC0, 0x80] = ⟨.overlong_enocoding, 0, 0⟩ ∧
    validate_quick [0xC0, 0x80] = ⟨.success, 2, 1⟩ := by
  refine ⟨?_, ?_, ?_, ?_⟩
  · intro bytes
    exact validate_quick_loop_error bytes 0 0
  · intro bytes h1 h2
    rcases validate_quick_loop_agrees bytes 0 0 with h | h | h
    · exact h
    · exact absurd h h1
    · exact absurd h h2
  · simp [validate, validate_loop, cont_bad1, codepoint2]
    try decide
  · simp [validate_quick, validate_quick_loop, cont_bad1]
    try decide

/-- Witness for claim C4: the refinement instantiated on a concrete input
on which validate does not report a semantic error. -/
theorem validate_quick_refines_validate_witness :
    validate_quick [0x41, 0xFF] = validate [0x41, 0xFF] :=
  validate_quick_refines_validate.2.1 [0x41, 0xFF]
    (by simp [validate, validate_loop]; try decide)
    (by simp [validate, validate_loop]; try decide)

/-- Claim C3: for both validators the prefix range always ends at either
full success or the offset of the first invalid byte (the failing lead
byte for the sequence-level errors, the offending byte itself for
unexpected_continuation_byte and invalid_byte), and codepoint_count
counts exactly the codepoints fully decoded strictly before that offset
(the prefix up to the range end revalidates to success with that
count). -/
theorem validation_failure_prefix_spec (bytes : List Nat) :
    ((validate bytes).range_size ≤ bytes.length ∧
      validate (bytes.take (validate bytes).range_size)
        = ⟨.success, (validate bytes).range_size, (validate bytes).codepoint_count⟩ ∧
      ((validate bytes).error = .success → (validate bytes).range_size = bytes.length) ∧
      ((validate bytes).error ≠ .success →
        (validate bytes).range_size < bytes.length ∧
        errByteClass (bytes.getD (validate bytes).range_size 0) ((validate bytes).error))) ∧
    ((validate_quick bytes).range_size ≤ bytes.length ∧
      validate_quick (bytes.take (validate_quick bytes).range_size)
        = ⟨.success, (validate_quick bytes).range_size, (validate_quick bytes).codepoint_count⟩ ∧
      ((validate_quick bytes).error = .success →
        (validate_quick bytes).range_size = bytes.length) ∧
      ((validate_quick bytes).error ≠ .success →
        (validate_quick bytes).range_size < bytes.length ∧
        errByteClass (bytes.getD (validate_quick bytes).range_size 0)
          ((validate_quick bytes).error))) := by
  simp only [validate, validate_quick]
  refine ⟨⟨?_, ?_, ?_, ?_⟩, ?_, ?_, ?_, ?_⟩
  · rcases (validate_loop_range_bounds bytes 0 0).2.2 with h | h
    · exact h
    · omega
  · exact validate_loop_take bytes 0 0
  · intro hs
    rcases validate_loop_success_range bytes 0 0 with h | h
    · exact absurd hs h
    · rcases (validate_loop_range_bounds bytes 0 0).2.2 with h2 | h2 <;> omega
  · intro hs
    rcases validate_loop_err_class bytes 0 0 with h | h
    · exact absurd h hs
    · exact h
  · rcases (validate_quick_loop_range_bounds bytes 0 0).2.2 with h | h
    · exact h
    · omega
  · exact validate_quick_loop_take bytes 0 0
  · intro hs
    rcases validate_quick_loop_success_range bytes 0 0 with h | h
    · exact absurd hs h
    · rcases (validate_quick_loop_range_bounds bytes 0 0).2.2 with h2 | h2 <;> omega
  · intro hs
    rcases validate_quick_loop_err_class bytes 0 0 with h | h
    · exact absurd h hs
    · exact h

/-- Witness for claim C3 on the failing input [41, 80]: the prefix stops
at the offending continuation byte at offset 1, which lies in the
continuation-byte class, and one codepoint was decoded before it. -/
theorem validation_failure_prefix_spec_witness :
    (validate [0x41, 0x80]).range_size < [0x41, 0x80].length ∧
      errByteClass ([0x41, 0x80].getD (validate [0x41, 0x80]).range_size 0)
        ((validate [0x41, 0x80]).error) :=
  (validation_failure_prefix_spec [0x41, 0x80]).1.2.2.2
    (by simp [validate, validate_loop]; try decide)

/-- Claim C5: for every byte range accepted by validate with codepoint
count n, iterating the decoder n times from the start of the range ends
exactly at the end of the range, and on the encoding of any list of
Unicode scalar values the n codepoints produced are exactly those scalar
values, in order. -/
theorem decoder_inverts_validated_input :
    (∀ bytes : List Nat, (validate bytes).error = .success →
      (iterate_decode bytes 0 ((validate bytes).codepoint_count)).2 = bytes.length) ∧
    (∀ cps : List Nat, (∀ c ∈ cps, IsScalar c) →
      validate (utf8Encode cps)
          = ⟨.success, (utf8Encode cps).length, cps.length⟩ ∧
        iterate_decode (utf8Encode cps) 0 cps.length
          = (cps, (utf8Encode cps).length)) := by
  constructor
  · intro bytes hs
    have hend := iterate_decode_end bytes 0 0 hs
    have hrange : (validate_loop bytes 0 0).range_size = bytes.length := by
      rcases validate_loop_success_range bytes 0 0 with h | h
      · exact absurd hs h
      · rcases (validate_loop_range_bounds bytes 0 0).2.2 with h2 | h2 <;> omega
    simpa [validate, hrange] using hend
  · intro cps h
    have hall : ∀ c ∈ cps, c ≤ 0x10FFFF := fun c hc => (h c hc).1
    constructor
    · have hmain := validate_loop_encode cps (utf8Encode cps) 0 0 (by omega) (by simp) hall
      simpa [validate] using hmain
    · have hdec := iterate_decode_encode cps (utf8Encode cps) 0 (by simp) hall
      simpa using hdec

/-- Witness for claim C5 on a concrete scalar-value list covering all
four sequence lengths. -/
theorem decoder_inverts_validated_input_witness :
    iterate_decode (utf8Encode [0x41, 0xE9, 0x2603, 0x1F600]) 0 4
      = ([0x41, 0xE9, 0x2603, 0x1F600], (utf8Encode [0x41, 0xE9, 0x2603, 0x1F600]).length) :=
  ((decoder_inverts_validated_input.2 [0x41, 0xE9, 0x2603, 0x1F600]) (by decide)).2
end utf8

end losgodis

namespace losgodis

/-- Reading back a list through getD over its index range returns the list. -/
theorem readBytes_eq_of (litMem : Nat → List Nat) (s : string_pool) (a : Addr) (c : List Nat)
    (h : ∀ j, j < c.length → readByte litMem s a j = c.getD j 0) :
    readBytes litMem s a c.length = c := by
  apply List.ext_getElem
  · simp [readBytes]
  · intro i h1 h2
    simp only [readBytes, List.getElem_map, List.getElem_range]
    rw [h i (by simpa [readBytes] using h1)]
    rw [List.getD_eq_getElem?_getD, List.getElem?_eq_getElem h2]
    rfl

/-- The bytes of a literal address are the literal itself, in every pool state. -/
theorem readBytes_lit (litMem : Nat → List Nat) (s : string_pool) (id : Nat) :
    readBytes litMem s (Addr.lit id) (litMem id).length = litMem id := by
  apply readBytes_eq_of
  intro j hj
  rfl

/-- Pointwise equal reads give equal byte ranges. -/
theorem readBytes_congr (litMem : Nat → List Nat) (s s' : string_pool) (a : Addr) (n : Nat)
    (h : ∀ j, j < n → readByte litMem s' a j = readByte litMem s a j) :
    readBytes litMem s' a n = readBytes litMem s a n := by
  unfold readBytes
  apply List.map_congr_left
  intro j hj
  exact h j (List.mem_range.mp hj)

/-- An entry views exactly entry.size bytes. -/
theorem entryContent_length (litMem : Nat → List Nat) (s : string_pool) (e : Entry) :
    (entryContent litMem s e).length = e.size := by
  simp [entryContent, readBytes]

/-- Pools with equal pages read every address identically. -/
theorem readByte_pages_eq (litMem : Nat → List Nat) {s s' : string_pool}
    (h : s'.pages = s.pages) (a : Addr) (j : Nat) :
    readByte litMem s' a j = readByte litMem s a j := by
  cases a <;> simp [readByte, h]

/-- Frozen ranges only depend on the pages. -/
theorem frozenA_pages_eq {s s' : string_pool} (h : s'.pages = s.pages) (a : Addr) (n : Nat)
    (hf : FrozenA s a n) : FrozenA s' a n := by
  cases a with
  | page p off =>
    simp only [FrozenA, pageUsed, h] at hf ⊢
    exact hf
  | lit id => trivial

/-- A frozen range stays frozen when shrunk. -/
theorem frozenA_mono {s : string_pool} {a : Addr} {m n : Nat} (h : n ≤ m)
    (hf : FrozenA s a m) : FrozenA s a n := by
  cases a <;> simp_all [FrozenA] <;> omega

/-- push_back returns the old bump offset as the string start. -/
theorem push_back_start (pg : fixed_page) (c : List Nat) :
    (pg.push_back c).2 = page_size - pg.remaining := rfl

/-- push_back advances the bump pointer by size + 1. -/
theorem push_back_remaining (pg : fixed_page) (c : List Nat) :
    (pg.push_back c).1.remaining = pg.remaining - (c.length + 1) := rfl

/-- push_back writes the content bytes at the start offset. -/
theorem push_back_buffer_lt (pg : fixed_page) (c : List Nat) (j : Nat) (h : j < c.length) :
    (pg.push_back c).1.buffer (page_size - pg.remaining + j) = c.getD j 0 := by
  simp only [fixed_page.push_back]
  rw [if_pos (by omega)]
  have hj : page_size - pg.remaining + j - (page_size - pg.remaining) = j := by omega
  rw [hj, List.getD_eq_getElem?_getD, List.getD_eq_getElem?_getD, List.getElem?_append_left h]

/-- push_back writes a 0 terminator after the content. -/
theorem push_back_buffer_nul (pg : fixed_page) (c : List Nat) :
    (pg.push_back c).1.buffer (page_size - pg.remaining + c.length) = 0 := by
  simp only [fixed_page.push_back]
  rw [if_pos (by omega)]
  have hj : page_size - pg.remaining + c.length - (page_size - pg.remaining) = c.length := by omega
  rw [hj, List.getD_eq_getElem?_getD]
  simp

/-- push_back leaves every byte below the start offset unchanged. -/
theorem push_back_buffer_old (pg : fixed_page) (c : List Nat) (j : Nat)
    (h : j < page_size - pg.remaining) :
    (pg.push_back c).1.buffer j = pg.buffer j := by
  simp only [fixed_page.push_back]
  rw [if_neg (by omega)]

/-- push_back never writes at or past the end of the free region. -/
theorem push_back_buffer_ge (pg : fixed_page) (c : List Nat) (j : Nat)
    (h : page_size - pg.remaining + c.length + 1 ≤ j) :
    (pg.push_back c).1.buffer j = pg.buffer j := by
  simp only [fixed_page.push_back]
  rw [if_neg (by omega)]

/-- The page-roll check either chains a fresh page on top, or keeps the pages
because the current (last) page can hold the content. -/
theorem rolledPages_spec (s : string_pool) (n : Nat) :
    s.rolledPages n = s.pages ++ [freshPage] ∨
    (s.rolledPages n = s.pages ∧ 0 < s.pages.length ∧
      n + 1 < (s.pages.getD (s.pages.length - 1) freshPage).remaining) := by
  unfold string_pool.rolledPages
  rcases hl : s.pages.getLast? with _ | pg
  · exact Or.inl rfl
  · dsimp only
    have hg : s.pages.getD (s.pages.length - 1) freshPage = pg := by
      rw [List.getD_eq_getElem?_getD, ← List.getLast?_eq_getElem?, hl]
      rfl
    have hp : 0 < s.pages.length := by
      rcases hps : s.pages with _ | ⟨a, l⟩
      · rw [hps] at hl
        simp at hl
      · simp
    by_cases hc : pg.can_hold n = true
    · refine Or.inr ⟨by rw [if_pos hc], hp, ?_⟩
      rw [hg]
      simpa [fixed_page.can_hold] using hc
    · rw [if_neg hc]
      exact Or.inl rfl

/-- The rolled page list is never empty. -/
theorem rolledPages_pos (s : string_pool) (n : Nat) : 0 < (s.rolledPages n).length := by
  rcases rolledPages_spec s n with h | ⟨h, hp, _⟩
  · rw [h]
    simp
  · rw [h]
    exact hp

/-- The rolled page list keeps at least the old pages. -/
theorem rolledPages_length_ge (s : string_pool) (n : Nat) :
    s.pages.length ≤ (s.rolledPages n).length := by
  rcases rolledPages_spec s n with h | ⟨h, _, _⟩ <;> rw [h] <;> simp

/-- Rolling does not change any existing page. -/
theorem rolledPages_getD_lt (s : string_pool) (n p : Nat) (hp : p < s.pages.length) :
    (s.rolledPages n).getD p freshPage = s.pages.getD p freshPage := by
  rcases rolledPages_spec s n with h | ⟨h, _, _⟩ <;> rw [h]
  rw [List.getD_eq_getElem?_getD, List.getD_eq_getElem?_getD, List.getElem?_append_left hp]

/-- After the roll check, the current page can hold the content and its
remaining count is within the page capacity. -/
theorem recv_can_hold (s : string_pool) (n : Nat)
    (hb : ∀ pg ∈ s.pages, pg.remaining ≤ page_size) (hfit : n + 1 < page_size) :
    n + 1 < ((s.rolledPages n).getD ((s.rolledPages n).length - 1) freshPage).remaining ∧
    ((s.rolledPages n).getD ((s.rolledPages n).length - 1) freshPage).remaining ≤ page_size := by
  rcases rolledPages_spec s n with h | ⟨h, hp, hc⟩ <;> rw [h]
  · have hg : (s.pages ++ [freshPage]).getD ((s.pages ++ [freshPage]).length - 1) freshPage
        = freshPage := by
      rw [List.getD_eq_getElem?_getD]
      simp
    rw [hg]
    exact ⟨hfit, le_refl _⟩
  · refine ⟨hc, hb _ ?_⟩
    rw [List.getD_eq_getElem?_getD, List.getElem?_eq_getElem (by omega)]
    exact List.getElem_mem _

/-- getD after set at the written index. -/
theorem getD_set_self {α : Type} (l : List α) (i : Nat) (x d : α) (h : i < l.length) :
    (l.set i x).getD i d = x := by
  rw [List.getD_eq_getElem?_getD, List.getElem?_set_self h]
  rfl

/-- getD after set at a different index. -/
theorem getD_set_ne {α : Type} (l : List α) (i j : Nat) (x d : α) (h : i ≠ j) :
    (l.set i x).getD j d = l.getD j d := by
  rw [List.getD_eq_getElem?_getD, List.getElem?_set_ne h, ← List.getD_eq_getElem?_getD]

/-- string_pool::get_string(string_key) on a lookup hit returns a view of the
stored bytes and leaves the pool unchanged. -/
theorem get_string_key_hit (litMem : Nat → List Nat) (s : string_pool) (c : List Nat)
    (e : Entry) (hhit : findEntry litMem s c = some e) :
    s.get_string_key litMem c = (⟨e.addr, c.length⟩, s) := by
  unfold string_pool.get_string_key
  rw [hhit]

/-- string_pool::get_string(string_literal) on a lookup hit returns a view of
the stored bytes and leaves the pool unchanged. -/
theorem get_string_literal_hit (litMem : Nat → List Nat) (s : string_pool) (id : Nat)
    (e : Entry) (hhit : findEntry litMem s (litMem id) = some e) :
    s.get_string_literal litMem id = (⟨e.addr, (litMem id).length⟩, s) := by
  unfold string_pool.get_string_literal
  rw [hhit]

/-- string_pool::get_string(string_literal) on a miss indexes the literal
memory itself and touches no page. -/
theorem get_string_literal_miss (litMem : Nat → List Nat) (s : string_pool) (id : Nat)
    (hmiss : findEntry litMem s (litMem id) = none) :
    s.get_string_literal litMem id =
      (⟨.lit id, (litMem id).length⟩,
       ⟨⟨.lit id, (litMem id).length, detail.hash (litMem id)⟩ :: s.map, s.pages⟩) := by
  unfold string_pool.get_string_literal
  rw [hmiss]

/-- Reads inside the already-used region of any old page are unchanged by the
page roll and copy of a key-path miss. -/
theorem frozen_stable_core (s : string_pool) (c : List Nat) (p off n : Nat)
    (hp : p < s.pages.length)
    (hn : off + n ≤ pageUsed s p) :
    (off + n ≤ page_size -
      (((s.rolledPages c.length).set ((s.rolledPages c.length).length - 1)
        (((s.rolledPages c.length).getD ((s.rolledPages c.length).length - 1) freshPage).push_back c).1).getD p freshPage).remaining) ∧
    ∀ j, j < n →
      (((s.rolledPages c.length).set ((s.rolledPages c.length).length - 1)
        (((s.rolledPages c.length).getD ((s.rolledPages c.length).length - 1) freshPage).push_back c).1).getD p freshPage).buffer (off + j)
      = (s.pages.getD p freshPage).buffer (off + j) := by
  have hpos := rolledPages_pos s c.length
  rcases rolledPages_spec s c.length with h | ⟨h, hl0, hcan⟩
  · have hlen : (s.rolledPages c.length).length = s.pages.length + 1 := by
      rw [h]
      simp
    have hne : (s.rolledPages c.length).length - 1 ≠ p := by omega
    rw [getD_set_ne _ _ _ _ _ hne, rolledPages_getD_lt s _ p hp]
    exact ⟨hn, fun j hj => rfl⟩
  · rw [h]
    by_cases hpe : s.pages.length - 1 = p
    · subst hpe
      rw [getD_set_self _ _ _ _ (by omega)]
      rw [push_back_remaining]
      have hused : pageUsed s (s.pages.length - 1) =
          page_size - (s.pages.getD (s.pages.length - 1) freshPage).remaining := rfl
      constructor
      · rw [hused] at hn
        omega
      · intro j hj
        apply push_back_buffer_old
        rw [hused] at hn
        omega
    · rw [getD_set_ne _ _ _ _ _ hpe]
      exact ⟨hn, fun j hj => rfl⟩

/-- Every page after the roll and copy of a key-path miss still satisfies the
capacity bound. -/
theorem pages_bound_core (s : string_pool) (c : List Nat)
    (hb : ∀ pg ∈ s.pages, pg.remaining ≤ page_size)
    (hfit : c.length + 1 < page_size) :
    ∀ pg ∈ (s.rolledPages c.length).set ((s.rolledPages c.length).length - 1)
      (((s.rolledPages c.length).getD ((s.rolledPages c.length).length - 1) freshPage).push_back c).1,
      pg.remaining ≤ page_size := by
  intro pg hpg
  rcases List.mem_or_eq_of_mem_set hpg with hmem | rfl
  · rcases rolledPages_spec s c.length with h | ⟨h, _, _⟩
    · rw [h] at hmem
      rcases List.mem_append.mp hmem with hm | hm
      · exact hb _ hm
      · simp only [List.mem_singleton] at hm
        rw [hm]
        exact le_refl _
    · rw [h] at hmem
      exact hb _ hmem
  · rw [push_back_remaining]
    have h2 := (recv_can_hold s c.length hb hfit).2
    omega

/-- string_pool::get_string(string_key) on a lookup miss: the returned handle
has the probe size and points into a page; the new index entry views the
handle bytes; every page keeps its capacity bound; all previously used bytes
keep their values and stay inside the used region; the copied bytes equal the
content and carry a 0 terminator, all inside the used region of the page. -/
theorem get_string_key_miss_facts (litMem : Nat → List Nat) (s : string_pool) (c : List Nat)
    (hb : ∀ pg ∈ s.pages, pg.remaining ≤ page_size)
    (hfit : c.length + 1 < page_size)
    (hmiss : findEntry litMem s c = none) :
    (∃ p off, (s.get_string_key litMem c).1.data = Addr.page p off) ∧
    (s.get_string_key litMem c).1.size = c.length ∧
    (s.get_string_key litMem c).2.map =
      ⟨(s.get_string_key litMem c).1.data, c.length, detail.hash c⟩ :: s.map ∧
    (∀ pg ∈ (s.get_string_key litMem c).2.pages, pg.remaining ≤ page_size) ∧
    (∀ a n, FrozenA s a n → FrozenA (s.get_string_key litMem c).2 a n) ∧
    (∀ a n, FrozenA s a n → ∀ j, j < n →
      readByte litMem (s.get_string_key litMem c).2 a j = readByte litMem s a j) ∧
    FrozenA (s.get_string_key litMem c).2 (s.get_string_key litMem c).1.data (c.length + 1) ∧
    (∀ j, j < c.length →
      readByte litMem (s.get_string_key litMem c).2 (s.get_string_key litMem c).1.data j
        = c.getD j 0) ∧
    readByte litMem (s.get_string_key litMem c).2 (s.get_string_key litMem c).1.data c.length
      = 0 := by
  have hpos := rolledPages_pos s c.length
  have hge := rolledPages_length_ge s c.length
  obtain ⟨h1, h2⟩ := recv_can_hold s c.length hb hfit
  have hset := getD_set_self (s.rolledPages c.length) ((s.rolledPages c.length).length - 1)
    (((s.rolledPages c.length).getD ((s.rolledPages c.length).length - 1) freshPage).push_back c).1
    freshPage (by omega)
  have hunf : s.get_string_key litMem c =
      (⟨.page ((s.rolledPages c.length).length - 1)
          (((s.rolledPages c.length).getD ((s.rolledPages c.length).length - 1) freshPage).push_back c).2,
        c.length⟩,
       ⟨⟨.page ((s.rolledPages c.length).length - 1)
            (((s.rolledPages c.length).getD ((s.rolledPages c.length).length - 1) freshPage).push_back c).2,
          c.length, detail.hash c⟩ :: s.map,
        (s.rolledPages c.length).set ((s.rolledPages c.length).length - 1)
          (((s.rolledPages c.length).getD ((s.rolledPages c.length).length - 1) freshPage).push_back c).1⟩) := by
    unfold string_pool.get_string_key
    rw [hmiss]
  rw [hunf]
  dsimp only
  refine ⟨⟨_, _, rfl⟩, rfl, rfl, pages_bound_core s c hb hfit, ?_, ?_, ?_, ?_, ?_⟩
  · intro a n hf
    cases a with
    | lit id => trivial
    | page p off =>
      have hf' : p < s.pages.length ∧ off + n ≤ pageUsed s p := hf
      refine ⟨?_, ?_⟩
      · show p < ((s.rolledPages c.length).set _ _).length
        rw [List.length_set]
        omega
      · show off + n ≤ page_size - _
        exact (frozen_stable_core s c p off n hf'.1 hf'.2).1
  · intro a n hf j hj
    cases a with
    | lit id => rfl
    | page p off =>
      have hf' : p < s.pages.length ∧ off + n ≤ pageUsed s p := hf
      exact (frozen_stable_core s c p off n hf'.1 hf'.2).2 j hj
  · refine ⟨?_, ?_⟩
    · show (s.rolledPages c.length).length - 1 < ((s.rolledPages c.length).set _ _).length
      rw [List.length_set]
      omega
    · show (((s.rolledPages c.length).getD ((s.rolledPages c.length).length - 1) freshPage).push_back c).2
          + (c.length + 1) ≤ page_size - _
      rw [hset, push_back_start, push_back_remaining]
      omega
  · intro j hj
    show (((s.rolledPages c.length).set _ _).getD _ freshPage).buffer
        ((((s.rolledPages c.length).getD ((s.rolledPages c.length).length - 1) freshPage).push_back c).2 + j)
      = c.getD j 0
    rw [hset, push_back_start]
    exact push_back_buffer_lt _ _ _ hj
  · show (((s.rolledPages c.length).set _ _).getD _ freshPage).buffer
        ((((s.rolledPages c.length).getD ((s.rolledPages c.length).length - 1) freshPage).push_back c).2 + c.length)
      = 0
    rw [hset, push_back_start]
    exact push_back_buffer_nul _ _

/-- find? only depends on the predicate values at the list members. -/
theorem find_congr {α : Type} (p q : α → Bool) (l : List α)
    (h : ∀ a ∈ l, p a = q a) : l.find? p = l.find? q := by
  induction l with
  | nil => rfl
  | cons a l ih =>
    rw [List.find?_cons, List.find?_cons, h a (List.mem_cons_self a l)]
    cases hq : q a
    · exact ih (fun b hb => h b (List.mem_cons_of_mem a hb))
    · rfl

/-- The default-constructed pool satisfies the invariant. -/
theorem Inv_empty (litMem : Nat → List Nat) : Inv litMem string_pool.empty := by
  refine ⟨?_, ?_, ?_⟩ <;> simp [string_pool.empty]

/-- The key path preserves the invariant, keeps frozen bytes and their values,
keeps every index entry, indexes the probed content at the returned handle,
and sizes the handle by the probe. -/
theorem get_string_key_preserves (litMem : Nat → List Nat) (s : string_pool) (c : List Nat)
    (hInv : Inv litMem s) (hfit : c.length + 1 < page_size) :
    Inv litMem (s.get_string_key litMem c).2 ∧
    (∀ a n, FrozenA s a n → FrozenA (s.get_string_key litMem c).2 a n ∧
      ∀ j, j < n → readByte litMem (s.get_string_key litMem c).2 a j = readByte litMem s a j) ∧
    (∀ d e, findEntry litMem s d = some e →
      findEntry litMem (s.get_string_key litMem c).2 d = some e) ∧
    (∃ e, findEntry litMem (s.get_string_key litMem c).2 c = some e ∧
      e.addr = (s.get_string_key litMem c).1.data ∧ e.size = c.length) ∧
    (s.get_string_key litMem c).1.size = c.length := by
  rcases hfind : findEntry litMem s c with _ | e
  · obtain ⟨hshape, hsize, hmap, hpages, hfroz, hread, hhfroz, hhread, hhnul⟩ :=
      get_string_key_miss_facts litMem s c hInv.remaining_le hfit hfind
    have hcontent : entryContent litMem (s.get_string_key litMem c).2
        ⟨(s.get_string_key litMem c).1.data, c.length, detail.hash c⟩ = c := by
      show readBytes litMem (s.get_string_key litMem c).2 (s.get_string_key litMem c).1.data
          c.length = c
      exact readBytes_eq_of litMem _ _ c hhread
    have hstab : ∀ e' ∈ s.map, entryContent litMem (s.get_string_key litMem c).2 e'
        = entryContent litMem s e' := by
      intro e' he'
      have hf := frozenA_mono (Nat.le_succ e'.size) (hInv.entries_frozen e' he')
      exact readBytes_congr litMem s _ e'.addr e'.size (hread e'.addr e'.size hf)
    have hnot : ∀ e' ∈ s.map, entryContent litMem s e' ≠ c := by
      intro e' he' hcc
      have := List.find?_eq_none.mp hfind e' he'
      exact this (by simpa using hcc)
    have hfind' : ∀ d : List Nat,
        findEntry litMem (s.get_string_key litMem c).2 d =
          (⟨(s.get_string_key litMem c).1.data, c.length, detail.hash c⟩ :: s.map).find?
            (fun x => entryContent litMem (s.get_string_key litMem c).2 x == d) := by
      intro d
      unfold findEntry
      rw [hmap]
    refine ⟨⟨hpages, ?_, ?_⟩, fun a n hf => ⟨hfroz a n hf, hread a n hf⟩, ?_, ?_, hsize⟩
    · intro e' he'
      rw [hmap] at he'
      rcases List.mem_cons.mp he' with rfl | hm
      · exact hhfroz
      · exact hfroz _ _ (hInv.entries_frozen e' hm)
    · rw [hmap]
      refine List.pairwise_cons.mpr ⟨?_, ?_⟩
      · intro e' he' hcc
        rw [hcontent, hstab e' he'] at hcc
        exact hnot e' he' hcc.symm
      · refine List.Pairwise.imp_of_mem ?_ hInv.entries_unique
        intro e1 e2 h1 h2 hne
        rw [hstab e1 h1, hstab e2 h2]
        exact hne
    · intro d e' hde
      have hdc : d ≠ c := by
        intro hh
        rw [hh, hfind] at hde
        cases hde
      rw [hfind' d, List.find?_cons_of_neg _ (by
          rw [hcontent]
          simp [beq_eq_false_iff_ne]
          exact fun hh => hdc hh.symm)]
      rw [find_congr _ (fun x => entryContent litMem s x == d) _
        (fun e2 he2 => by rw [hstab e2 he2])]
      exact hde
    · refine ⟨⟨(s.get_string_key litMem c).1.data, c.length, detail.hash c⟩, ?_, rfl, rfl⟩
      rw [hfind' c, List.find?_cons_of_pos _ (by rw [hcontent]; exact beq_self_eq_true c)]
  · rw [get_string_key_hit litMem s c e hfind]
    dsimp only
    have hfind2 : s.map.find? (fun x => entryContent litMem s x == c) = some e := hfind
    have hp := List.find?_some hfind2
    have hpc : entryContent litMem s e = c := by simpa using hp
    refine ⟨hInv, fun a n hf => ⟨hf, fun j hj => rfl⟩, fun d e' h => h, ⟨e, hfind, rfl, ?_⟩, rfl⟩
    rw [← hpc, entryContent_length]

/-- The literal path preserves the invariant, touches no page, keeps every
index entry, indexes the literal content at the returned handle, and sizes
the handle by the literal. -/
theorem get_string_literal_preserves (litMem : Nat → List Nat) (s : string_pool) (id : Nat)
    (hInv : Inv litMem s) :
    Inv litMem (s.get_string_literal litMem id).2 ∧
    (∀ a n, FrozenA s a n → FrozenA (s.get_string_literal litMem id).2 a n ∧
      ∀ j, j < n → readByte litMem (s.get_string_literal litMem id).2 a j
        = readByte litMem s a j) ∧
    (∀ d e, findEntry litMem s d = some e →
      findEntry litMem (s.get_string_literal litMem id).2 d = some e) ∧
    (∃ e, findEntry litMem (s.get_string_literal litMem id).2 (litMem id) = some e ∧
      e.addr = (s.get_string_literal litMem id).1.data ∧ e.size = (litMem id).length) ∧
    (s.get_string_literal litMem id).1.size = (litMem id).length := by
  rcases hfind : findEntry litMem s (litMem id) with _ | e
  · rw [get_string_literal_miss litMem s id hfind]
    dsimp only
    have hpg : (⟨⟨.lit id, (litMem id).length, detail.hash (litMem id)⟩ :: s.map, s.pages⟩
        : string_pool).pages = s.pages := rfl
    have hstab : ∀ e' : Entry, entryContent litMem
        ⟨⟨.lit id, (litMem id).length, detail.hash (litMem id)⟩ :: s.map, s.pages⟩ e'
        = entryContent litMem s e' := by
      intro e'
      exact readBytes_congr litMem s _ e'.addr e'.size
        (fun j hj => readByte_pages_eq litMem hpg e'.addr j)
    have hcontent : entryContent litMem
        ⟨⟨.lit id, (litMem id).length, detail.hash (litMem id)⟩ :: s.map, s.pages⟩
        ⟨.lit id, (litMem id).length, detail.hash (litMem id)⟩ = litMem id :=
      readBytes_lit litMem _ id
    have hnot : ∀ e' ∈ s.map, entryContent litMem s e' ≠ litMem id := by
      intro e' he' hcc
      have := List.find?_eq_none.mp hfind e' he'
      exact this (by simpa using hcc)
    refine ⟨⟨?_, ?_, ?_⟩, ?_, ?_, ?_, rfl⟩
    · exact hInv.remaining_le
    · intro e' he'
      rcases List.mem_cons.mp he' with rfl | hm
      · trivial
      · exact frozenA_pages_eq hpg _ _ (hInv.entries_frozen e' hm)
    · refine List.pairwise_cons.mpr ⟨?_, ?_⟩
      · intro e' he' hcc
        rw [hcontent, hstab e'] at hcc
        exact hnot e' he' hcc.symm
      · refine List.Pairwise.imp_of_mem ?_ hInv.entries_unique
        intro e1 e2 h1 h2 hne
        rw [hstab e1, hstab e2]
        exact hne
    · intro a n hf
      exact ⟨frozenA_pages_eq hpg a n hf, fun j hj => readByte_pages_eq litMem hpg a j⟩
    · intro d e' hde
      have hdc : d ≠ litMem id := by
        intro hh
        rw [hh, hfind] at hde
        cases hde
      show (⟨.lit id, (litMem id).length, detail.hash (litMem id)⟩ :: s.map).find?
        (fun x => entryContent litMem _ x == d) = some e'
      rw [List.find?_cons_of_neg _ (by
          rw [hcontent]
          simp [beq_eq_false_iff_ne]
          exact fun hh => hdc hh.symm)]
      rw [find_congr _ (fun x => entryContent litMem s x == d) _
        (fun e2 he2 => by rw [hstab e2])]
      exact hde
    · refine ⟨⟨.lit id, (litMem id).length, detail.hash (litMem id)⟩, ?_, rfl, rfl⟩
      show (⟨.lit id, (litMem id).length, detail.hash (litMem id)⟩ :: s.map).find?
        (fun x => entryContent litMem _ x == litMem id) = some _
      rw [List.find?_cons_of_pos _ (by rw [hcontent]; exact beq_self_eq_true (litMem id))]
  · rw [get_string_literal_hit litMem s id e hfind]
    dsimp only
    have hfind2 : s.map.find? (fun x => entryContent litMem s x == litMem id) = some e := hfind
    have hp := List.find?_some hfind2
    have hpc : entryContent litMem s e = litMem id := by simpa using hp
    refine ⟨hInv, fun a n hf => ⟨hf, fun j hj => rfl⟩, fun d e' h => h, ⟨e, hfind, rfl, ?_⟩, rfl⟩
    rw [← hpc, entryContent_length]

/-- One interning call, through any entry point, preserves the invariant,
keeps frozen bytes and their values, keeps every index entry, indexes the
interned content at the returned handle, and sizes the handle by the
content. -/
theorem applyOp_preserves (litMem : Nat → List Nat) (s : string_pool) (op : Op)
    (hInv : Inv litMem s) (hfit : OpFits op) :
    Inv litMem (applyOp litMem s op).2 ∧
    (∀ a n, FrozenA s a n → FrozenA (applyOp litMem s op).2 a n ∧
      ∀ j, j < n → readByte litMem (applyOp litMem s op).2 a j = readByte litMem s a j) ∧
    (∀ d e, findEntry litMem s d = some e →
      findEntry litMem (applyOp litMem s op).2 d = some e) ∧
    (∃ e, findEntry litMem (applyOp litMem s op).2 (opContent litMem op) = some e ∧
      e.addr = (applyOp litMem s op).1.data ∧ e.size = (opContent litMem op).length) ∧
    (applyOp litMem s op).1.size = (opContent litMem op).length := by
  cases op with
  | key c => exact get_string_key_preserves litMem s c hInv hfit
  | lit id => exact get_string_literal_preserves litMem s id hInv

/-- Running any operation list preserves the invariant, keeps frozen bytes
and their values, keeps every index entry, and leaves every returned handle
indexed: the final index resolves each handle content to an entry carrying
exactly that handle address and size. -/
theorem runPool_preserves (litMem : Nat → List Nat) (ops : List Op) :
    ∀ s : string_pool, Inv litMem s → (∀ op ∈ ops, OpFits op) →
    Inv litMem (runPool litMem s ops).1 ∧
    (∀ a n, FrozenA s a n → FrozenA (runPool litMem s ops).1 a n ∧
      ∀ j, j < n → readByte litMem (runPool litMem s ops).1 a j = readByte litMem s a j) ∧
    (∀ d e, findEntry litMem s d = some e →
      findEntry litMem (runPool litMem s ops).1 d = some e) ∧
    (∀ k, k < ops.length →
      ∃ e, findEntry litMem (runPool litMem s ops).1
          (opContent litMem (ops.getD k (.key []))) = some e ∧
        e.addr = ((runPool litMem s ops).2.getD k ⟨.lit 0, 0⟩).data ∧
        e.size = ((runPool litMem s ops).2.getD k ⟨.lit 0, 0⟩).size ∧
        ((runPool litMem s ops).2.getD k ⟨.lit 0, 0⟩).size
          = (opContent litMem (ops.getD k (.key []))).length) := by
  induction ops with
  | nil =>
    intro s hInv hfit
    exact ⟨hInv, fun a n hf => ⟨hf, fun j hj => rfl⟩, fun d e h => h,
      fun k hk => absurd hk (by simp)⟩
  | cons op ops ih =>
    intro s hInv hfit
    obtain ⟨hI1, hF1, hE1, hX1, hS1⟩ := applyOp_preserves litMem s op hInv (hfit op (by simp))
    obtain ⟨hI2, hF2, hE2, hH2⟩ :=
      ih (applyOp litMem s op).2 hI1 (fun o ho => hfit o (by simp [ho]))
    have hrw : runPool litMem s (op :: ops)
        = ((runPool litMem (applyOp litMem s op).2 ops).1,
           (applyOp litMem s op).1 :: (runPool litMem (applyOp litMem s op).2 ops).2) := rfl
    rw [hrw]
    dsimp only
    refine ⟨hI2, ?_, fun d e h => hE2 d e (hE1 d e h), ?_⟩
    · intro a n hf
      obtain ⟨ha1, hr1⟩ := hF1 a n hf
      obtain ⟨ha2, hr2⟩ := hF2 a n ha1
      exact ⟨ha2, fun j hj => (hr2 j hj).trans (hr1 j hj)⟩
    · intro k hk
      cases k with
      | zero =>
        obtain ⟨e, he, hea, hes⟩ := hX1
        rw [List.getD_cons_zero, List.getD_cons_zero]
        exact ⟨e, hE2 _ e he, hea, hes.trans hS1.symm, hS1⟩
      | succ k =>
        rw [List.getD_cons_succ, List.getD_cons_succ]
        exact hH2 k (by simpa using hk)

/-- Every reachable pool state satisfies the invariant. -/
theorem reachable_inv (litMem : Nat → List Nat) (s : string_pool)
    (h : Reachable litMem s) : Inv litMem s := by
  induction h with
  | empty => exact Inv_empty litMem
  | key hr hfit ih => exact (get_string_key_preserves litMem _ _ ih hfit).1
  | lit hr ih => exact (get_string_literal_preserves litMem _ _ ih).1

/-- C6: the string_view and std::string entry points run the string_key path,
and in any operation sequence on a fresh pool (each copied string fitting in
a page), any two interning calls with byte-identical content, through any
entry points, in any order and with any interleaved insertions, return equal
handles: the same data address and the same length. -/
theorem pool_dedup_idempotent :
    (∀ (litMem : Nat → List Nat) (s : string_pool) (c : List Nat),
      s.get_string_view litMem c = s.get_string_key litMem c) ∧
    (∀ (litMem : Nat → List Nat) (s : string_pool) (c : List Nat),
      s.get_string_str litMem c = s.get_string_key litMem c) ∧
    ∀ (litMem : Nat → List Nat) (ops : List Op), (∀ op ∈ ops, OpFits op) →
      ∀ i j, i < ops.length → j < ops.length →
        opContent litMem (ops.getD i (.key [])) = opContent litMem (ops.getD j (.key [])) →
        (runPool litMem string_pool.empty ops).2.getD i ⟨.lit 0, 0⟩
          = (runPool litMem string_pool.empty ops).2.getD j ⟨.lit 0, 0⟩ := by
  refine ⟨fun _ _ _ => rfl, fun _ _ _ => rfl, ?_⟩
  intro litMem ops hfit i j hi hj heq
  obtain ⟨_, _, _, hH⟩ := runPool_preserves litMem ops string_pool.empty (Inv_empty litMem) hfit
  obtain ⟨e1, he1, ha1, hs1, _⟩ := hH i hi
  obtain ⟨e2, he2, ha2, hs2, _⟩ := hH j hj
  rw [heq] at he1
  have hee : e1 = e2 := Option.some.inj (he1.symm.trans he2)
  have hd : ((runPool litMem string_pool.empty ops).2.getD i ⟨.lit 0, 0⟩).data
      = ((runPool litMem string_pool.empty ops).2.getD j ⟨.lit 0, 0⟩).data := by
    rw [← ha1, ← ha2, hee]
  have hs : ((runPool litMem string_pool.empty ops).2.getD i ⟨.lit 0, 0⟩).size
      = ((runPool litMem string_pool.empty ops).2.getD j ⟨.lit 0, 0⟩).size := by
    rw [← hs1, ← hs2, hee]
  calc (runPool litMem string_pool.empty ops).2.getD i ⟨.lit 0, 0⟩
      = ⟨((runPool litMem string_pool.empty ops).2.getD i ⟨.lit 0, 0⟩).data,
         ((runPool litMem string_pool.empty ops).2.getD i ⟨.lit 0, 0⟩).size⟩ := rfl
    _ = ⟨((runPool litMem string_pool.empty ops).2.getD j ⟨.lit 0, 0⟩).data,
         ((runPool litMem string_pool.empty ops).2.getD j ⟨.lit 0, 0⟩).size⟩ := by rw [hd, hs]
    _ = (runPool litMem string_pool.empty ops).2.getD j ⟨.lit 0, 0⟩ := rfl

/-- C6 witness: interning [65] twice with an interleaved literal insert
returns the same handle both times. -/
theorem pool_dedup_idempotent_witness :
    (runPool (fun _ => [66]) string_pool.empty
        [Op.key [65], Op.lit 0, Op.key [65]]).2.getD 0 ⟨.lit 0, 0⟩
      = (runPool (fun _ => [66]) string_pool.empty
        [Op.key [65], Op.lit 0, Op.key [65]]).2.getD 2 ⟨.lit 0, 0⟩ :=
  pool_dedup_idempotent.2.2 (fun _ => [66]) [Op.key [65], Op.lit 0, Op.key [65]]
    (by decide) 0 2 (by decide) (by decide) rfl

/-- C7: the bytes backing every handle issued by an operation prefix equal
the interned content, and still equal it after any further operations,
including those that allocate a new page: previously issued handles are
never modified, moved, or invalidated. -/
theorem pool_handles_never_invalidated (litMem : Nat → List Nat) (ops1 ops2 : List Op)
    (hfit1 : ∀ op ∈ ops1, OpFits op) (hfit2 : ∀ op ∈ ops2, OpFits op)
    (k : Nat) (hk : k < ops1.length) :
    readBytes litMem (runPool litMem string_pool.empty ops1).1
        ((runPool litMem string_pool.empty ops1).2.getD k ⟨.lit 0, 0⟩).data
        ((runPool litMem string_pool.empty ops1).2.getD k ⟨.lit 0, 0⟩).size
      = opContent litMem (ops1.getD k (.key [])) ∧
    readBytes litMem (runPool litMem (runPool litMem string_pool.empty ops1).1 ops2).1
        ((runPool litMem string_pool.empty ops1).2.getD k ⟨.lit 0, 0⟩).data
        ((runPool litMem string_pool.empty ops1).2.getD k ⟨.lit 0, 0⟩).size
      = opContent litMem (ops1.getD k (.key [])) := by
  obtain ⟨hI1, _, _, hH⟩ :=
    runPool_preserves litMem ops1 string_pool.empty (Inv_empty litMem) hfit1
  obtain ⟨e, he, ha, hs, _⟩ := hH k hk
  have hfind2 : (runPool litMem string_pool.empty ops1).1.map.find?
      (fun x => entryContent litMem (runPool litMem string_pool.empty ops1).1 x
        == opContent litMem (ops1.getD k (.key []))) = some e := he
  have hp := List.find?_some hfind2
  have hmem := List.mem_of_find?_eq_some hfind2
  have hpc : entryContent litMem (runPool litMem string_pool.empty ops1).1 e
      = opContent litMem (ops1.getD k (.key [])) := by simpa using hp
  have hc1 : readBytes litMem (runPool litMem string_pool.empty ops1).1
      ((runPool litMem string_pool.empty ops1).2.getD k ⟨.lit 0, 0⟩).data
      ((runPool litMem string_pool.empty ops1).2.getD k ⟨.lit 0, 0⟩).size
      = opContent litMem (ops1.getD k (.key [])) := by
    rw [← ha, ← hs]
    exact hpc
  refine ⟨hc1, ?_⟩
  have hfr : FrozenA (runPool litMem string_pool.empty ops1).1 e.addr e.size :=
    frozenA_mono (Nat.le_succ e.size) (hI1.entries_frozen e hmem)
  obtain ⟨_, hF2, _, _⟩ :=
    runPool_preserves litMem ops2 (runPool litMem string_pool.empty ops1).1 hI1 hfit2
  obtain ⟨_, hr⟩ := hF2 e.addr e.size hfr
  rw [← ha, ← hs]
  have hstep : readBytes litMem
      (runPool litMem (runPool litMem string_pool.empty ops1).1 ops2).1 e.addr e.size
      = readBytes litMem (runPool litMem string_pool.empty ops1).1 e.addr e.size :=
    readBytes_congr litMem _ _ e.addr e.size hr
  rw [hstep]
  exact hpc

/-- C7 witness: the handle for [72, 105] keeps its content after a further
insert. -/
theorem pool_handles_never_invalidated_witness :
    readBytes (fun _ => []) (runPool (fun _ => []) string_pool.empty [Op.key [72, 105]]).1
        ((runPool (fun _ => []) string_pool.empty [Op.key [72, 105]]).2.getD 0 ⟨.lit 0, 0⟩).data
        ((runPool (fun _ => []) string_pool.empty [Op.key [72, 105]]).2.getD 0 ⟨.lit 0, 0⟩).size
      = opContent (fun _ => []) ([Op.key [72, 105]].getD 0 (.key [])) ∧
    readBytes (fun _ => [])
        (runPool (fun _ => []) (runPool (fun _ => []) string_pool.empty [Op.key [72, 105]]).1
          [Op.key [33]]).1
        ((runPool (fun _ => []) string_pool.empty [Op.key [72, 105]]).2.getD 0 ⟨.lit 0, 0⟩).data
        ((runPool (fun _ => []) string_pool.empty [Op.key [72, 105]]).2.getD 0 ⟨.lit 0, 0⟩).size
      = opContent (fun _ => []) ([Op.key [72, 105]].getD 0 (.key [])) :=
  pool_handles_never_invalidated (fun _ => []) [Op.key [72, 105]] [Op.key [33]]
    (by decide) (by decide) 0 (by decide)

/-- C8: a string_literal insert on a miss is zero copy: the handle points at
the literal's own storage with the literal's length, the pages are untouched
(no byte copied, no page allocated), and later lookups of that content
through either entry point resolve to the same literal address. -/
theorem literal_insert_zero_copy (litMem : Nat → List Nat) (s : string_pool) (id : Nat)
    (hmiss : findEntry litMem s (litMem id) = none) :
    (s.get_string_literal litMem id).1 = ⟨.lit id, (litMem id).length⟩ ∧
    (s.get_string_literal litMem id).2.pages = s.pages ∧
    ((s.get_string_literal litMem id).2.get_string_key litMem (litMem id)).1.data = .lit id ∧
    ((s.get_string_literal litMem id).2.get_string_literal litMem id).1.data = .lit id := by
  rw [get_string_literal_miss litMem s id hmiss]
  dsimp only
  have hcontent : entryContent litMem
      ⟨⟨.lit id, (litMem id).length, detail.hash (litMem id)⟩ :: s.map, s.pages⟩
      ⟨.lit id, (litMem id).length, detail.hash (litMem id)⟩ = litMem id :=
    readBytes_lit litMem _ id
  have hfind : findEntry litMem
      ⟨⟨.lit id, (litMem id).length, detail.hash (litMem id)⟩ :: s.map, s.pages⟩ (litMem id)
      = some ⟨.lit id, (litMem id).length, detail.hash (litMem id)⟩ := by
    show (⟨.lit id, (litMem id).length, detail.hash (litMem id)⟩ :: s.map).find?
      (fun x => entryContent litMem _ x == litMem id) = some _
    rw [List.find?_cons_of_pos _ (by rw [hcontent]; exact beq_self_eq_true (litMem id))]
  refine ⟨rfl, rfl, ?_, ?_⟩
  · rw [get_string_key_hit litMem _ (litMem id) _ hfind]
  · rw [get_string_literal_hit litMem _ id _ hfind]

/-- C8 witness: inserting literal 0 with content [65] into a fresh pool. -/
theorem literal_insert_zero_copy_witness :
    (string_pool.empty.get_string_literal (fun _ => [65]) 0).1 = ⟨.lit 0, 1⟩ ∧
    (string_pool.empty.get_string_literal (fun _ => [65]) 0).2.pages = string_pool.empty.pages ∧
    ((string_pool.empty.get_string_literal (fun _ => [65]) 0).2.get_string_key
      (fun _ => [65]) [65]).1.data = .lit 0 ∧
    ((string_pool.empty.get_string_literal (fun _ => [65]) 0).2.get_string_literal
      (fun _ => [65]) 0).1.data = .lit 0 :=
  literal_insert_zero_copy (fun _ => [65]) string_pool.empty 0 rfl

/-- C9: in any reachable pool (each copied string fitting in a page), a
key-path miss reaches push_back with size + 1 strictly below the receiving
page's remaining free bytes, so the copied bytes plus terminator end at or
before page_size, and every buffer byte at index page_size or beyond is left
untouched: all writes stay inside the page buffer. -/
theorem push_back_writes_in_bounds (litMem : Nat → List Nat) (s : string_pool) (c : List Nat)
    (hreach : Reachable litMem s)
    (hfit : c.length + 1 < page_size)
    (hmiss : findEntry litMem s c = none) :
    c.length + 1 <
      ((s.rolledPages c.length).getD ((s.rolledPages c.length).length - 1) freshPage).remaining ∧
    page_size
      - ((s.rolledPages c.length).getD ((s.rolledPages c.length).length - 1) freshPage).remaining
      + c.length + 1 ≤ page_size ∧
    ∀ j, page_size ≤ j →
      ((((s.rolledPages c.length).getD ((s.rolledPages c.length).length - 1)
          freshPage).push_back c).1.buffer j
        = ((s.rolledPages c.length).getD ((s.rolledPages c.length).length - 1)
          freshPage).buffer j) := by
  have hb := (reachable_inv litMem s hreach).remaining_le
  obtain ⟨h1, h2⟩ := recv_can_hold s c.length hb hfit
  refine ⟨h1, by omega, ?_⟩
  intro j hj
  exact push_back_buffer_ge _ _ j (by omega)

/-- C9 witness: copying [65] into a fresh pool. -/
theorem push_back_writes_in_bounds_witness :
    1 + 1 < ((string_pool.empty.rolledPages 1).getD
        ((string_pool.empty.rolledPages 1).length - 1) freshPage).remaining ∧
    page_size - ((string_pool.empty.rolledPages 1).getD
        ((string_pool.empty.rolledPages 1).length - 1) freshPage).remaining
      + 1 + 1 ≤ page_size ∧
    ∀ j, page_size ≤ j →
      ((((string_pool.empty.rolledPages 1).getD
          ((string_pool.empty.rolledPages 1).length - 1) freshPage).push_back [65]).1.buffer j
        = ((string_pool.empty.rolledPages 1).getD
          ((string_pool.empty.rolledPages 1).length - 1) freshPage).buffer j) :=
  push_back_writes_in_bounds (fun _ => []) string_pool.empty [65]
    Reachable.empty (by decide) rfl

/-- C10: a copying-path miss (string_key, together with the string_view and
std::string overloads, which run the same path) returns a handle to a
page-owned copy whose first size bytes equal the input and whose byte at
index size is 0: pool-copied strings are NUL terminated. -/
theorem pool_copy_nul_terminated (litMem : Nat → List Nat) (s : string_pool) (c : List Nat)
    (hreach : Reachable litMem s)
    (hfit : c.length + 1 < page_size)
    (hmiss : findEntry litMem s c = none) :
    (s.get_string_view litMem c = s.get_string_key litMem c ∧
     s.get_string_str litMem c = s.get_string_key litMem c) ∧
    ∃ p off, (s.get_string_key litMem c).1 = ⟨.page p off, c.length⟩ ∧
      readBytes litMem (s.get_string_key litMem c).2 (.page p off) c.length = c ∧
      readByte litMem (s.get_string_key litMem c).2 (.page p off) c.length = 0 := by
  have hb := (reachable_inv litMem s hreach).remaining_le
  obtain ⟨⟨p, off, hdata⟩, hsize, _, _, _, _, _, hhread, hhnul⟩ :=
    get_string_key_miss_facts litMem s c hb hfit hmiss
  refine ⟨⟨rfl, rfl⟩, p, off, ?_, ?_, ?_⟩
  · calc (s.get_string_key litMem c).1
        = ⟨(s.get_string_key litMem c).1.data, (s.get_string_key litMem c).1.size⟩ := rfl
      _ = ⟨.page p off, c.length⟩ := by rw [hdata, hsize]
  · rw [← hdata]
    exact readBytes_eq_of litMem _ _ c hhread
  · rw [← hdata]
    exact hhnul

/-- C10 witness: copying [65, 66] into a fresh pool. -/
theorem pool_copy_nul_terminated_witness :
    (string_pool.empty.get_string_view (fun _ => []) [65, 66]
        = string_pool.empty.get_string_key (fun _ => []) [65, 66] ∧
     string_pool.empty.get_string_str (fun _ => []) [65, 66]
        = string_pool.empty.get_string_key (fun _ => []) [65, 66]) ∧
    ∃ p off, (string_pool.empty.get_string_key (fun _ => []) [65, 66]).1
        = ⟨.page p off, 2⟩ ∧
      readBytes (fun _ => []) (string_pool.empty.get_string_key (fun _ => []) [65, 66]).2
        (.page p off) 2 = [65, 66] ∧
      readByte (fun _ => []) (string_pool.empty.get_string_key (fun _ => []) [65, 66]).2
        (.page p off) 2 = 0 :=
  pool_copy_nul_terminated (fun _ => []) string_pool.empty [65, 66]
    Reachable.empty (by decide) rfl

end losgodis

